import Mathlib

/-!
Verification of the CPU-scheduling simulators of this repository.

The repository contains five scheduler implementations over processes
described by dictionaries with keys id, arrival and burst:

* question1.py : first-come-first-served, function fcfs_schedule;
* question2.py : non-preemptive shortest-job-first, sjf_non_preemptive_schedule;
* question3.py : preemptive shortest-job-first, sjf_preemptive_schedule;
* question4.py : single-processor round robin, round_robin_schedule;
* question6.py : a two-processor round-robin simulation script.

Each is embedded below as an executable Lean function. Times are Nat:
the sources use Python ints, and every arithmetic operation performed on
times by the sources keeps them non-negative for the inputs considered,
except inside question6 where remaining counters are embedded as Int
because the script can drive them below zero on degenerate inputs.
Loops that are not structurally recursive take a fuel argument and
return an Option, with none meaning fuel exhaustion.
-/

namespace Sched

/-- A process descriptor: the dictionary {id, arrival, burst} of the sources. -/
structure Process where
  id : String
  arrival : Nat
  burst : Nat
deriving DecidableEq, Repr

/-- A timeline segment {id, start, end} as emitted by questions 1 to 4.
The end key of the Python dictionaries is called stop here because end is
a reserved word in Lean. -/
structure Segment where
  id : String
  start : Nat
  stop : Nat
deriving DecidableEq, Repr

/-- Sorting by arrival, `sorted(processes, key=lambda x: x["arrival"])` of the
sources.  Python sorted is stable; Mathlib insertionSort with this relation
is also stable (orderedInsert places an element strictly after all
previously-inserted elements with an equal key, and insertionSort inserts the
later input elements first), hence both compute the same list. -/
def sortByArrival (ps : List Process) : List Process :=
  List.insertionSort (fun a b => a.arrival ≤ b.arrival) ps

/-- Valid scheduler input in the sense of the specification: non-empty list,
pairwise distinct ids, positive bursts.  Arrivals are Nat, hence
non-negative by construction.  Process ids must also differ from the
sentinel string Idle, which the sources use as the owner of idle segments. -/
def ValidInput (ps : List Process) : Prop :=
  ps ≠ [] ∧ (ps.map (·.id)).Nodup ∧ (∀ p ∈ ps, 0 < p.burst) ∧
    ∀ p ∈ ps, p.id ≠ "Idle"

instance : DecidablePred ValidInput := by
  unfold ValidInput; infer_instance

/-- a occurs strictly before b in the list l (at some pair of positions).
Used to express the original input order of two processes. -/
def Precedes (l : List Process) (a b : Process) : Prop :=
  ∃ i j, i < j ∧ l.get? i = some a ∧ l.get? j = some b

/-- Sum of the durations end - start of the non-Idle segments of a given
process id, the quantity the specification compares with the burst. -/
def sumDur (tl : List Segment) (pid : String) : Nat :=
  ((tl.filter (fun s => s.id = pid && s.id ≠ "Idle")).map
    (fun s => s.stop - s.start)).sum

/-! ## FCFS, question1.py -/

/-- The body of the for-loop of fcfs_schedule: walk the arrival-sorted
processes keeping current_time, emit an Idle segment when the processor
would sit idle before the next arrival, then emit the process segment. -/
def fcfsGo : List Process → Nat → List Segment
  | [], _ => []
  | p :: rest, t =>
    if t < p.arrival then
      ⟨"Idle", t, p.arrival⟩ :: ⟨p.id, p.arrival, p.arrival + p.burst⟩ ::
        fcfsGo rest (p.arrival + p.burst)
    else
      ⟨p.id, t, t + p.burst⟩ :: fcfsGo rest (t + p.burst)

/-- fcfs_schedule of question1.py. -/
def fcfs_schedule (ps : List Process) : List Segment :=
  fcfsGo (sortByArrival ps) 0

/-! ## SJF non-preemptive, question2.py -/

/-- Insert an id into a set of already-completed ids, completed.add of the
sources.  Membership and size are the only observations the sources make of
the set, so a duplicate-free list is a faithful embedding. -/
def insertSet (c : List String) (x : String) : List String :=
  if x ∈ c then c else c ++ [x]

/-- State of the sjf_non_preemptive_schedule while-loop. -/
structure SjfState where
  time : Nat
  ready : List Process
  completed : List String
  timeline : List Segment
deriving Repr

/-- The admission for-loop of question2.py: walk processes_sorted and append
to the ready queue every process that is not completed, has arrived, and is
not already queued. -/
def sjfAdmit (sorted : List Process) (s : SjfState) : List Process :=
  sorted.foldl
    (fun rq p =>
      if p.id ∉ s.completed ∧ p.arrival ≤ s.time then
        if p ∉ rq then rq ++ [p] else rq
      else rq)
    s.ready

/-- min(p["arrival"] for p in it) over a list, Python min of the arrival
values; returns 0 on an empty list, which question2.py never reaches
because the idle branch runs only while some process is uncompleted. -/
def minArrival : List Process → Nat
  | [] => 0
  | p :: rest => rest.foldl (fun m q => min m q.arrival) p.arrival

/-- One iteration of the question2.py while-loop, taken when
|completed| < |processes|: admit arrivals, then either jump over an idle gap
to the next arrival, or sort the ready queue by burst (Python list.sort is
stable, as is insertionSort) and run its head to completion. -/
def sjfStep (sorted : List Process) (s : SjfState) : SjfState :=
  let rq := sjfAdmit sorted s
  match rq with
  | [] =>
    let na := minArrival (sorted.filter (fun p => p.id ∉ s.completed))
    { time := na, ready := [], completed := s.completed,
      timeline := s.timeline ++ [⟨"Idle", s.time, na⟩] }
  | _ :: _ =>
    let srq := List.insertionSort (fun a b => a.burst ≤ b.burst) rq
    match srq with
    | [] => s  -- unreachable: a sort of a non-empty list is non-empty
    | sp :: rest =>
      { time := s.time + sp.burst, ready := rest,
        completed := insertSet s.completed sp.id,
        timeline := s.timeline ++ [⟨sp.id, s.time, s.time + sp.burst⟩] }

/-- The fueled while-loop of sjf_non_preemptive_schedule. -/
def sjfLoop (n : Nat) (sorted : List Process) : Nat → SjfState → Option (List Segment)
  | 0, _ => none
  | fuel + 1, s =>
    if s.completed.length < n then sjfLoop n sorted fuel (sjfStep sorted s)
    else some s.timeline

/-- sjf_non_preemptive_schedule of question2.py, with fuel. -/
def sjf_non_preemptive_schedule (fuel : Nat) (ps : List Process) :
    Option (List Segment) :=
  sjfLoop ps.length (sortByArrival ps) fuel ⟨0, [], [], []⟩

/-! ## SRTF, question3.py -/

/-- The dict comprehension of questions 3 and 4 building the remaining map,
remaining = the dictionary from p["id"] to p["burst"]; a later entry with the
same id overwrites an earlier one, as in Python.  Ids outside the dictionary
map to 0 (a lookup the sources never perform). -/
def dictBurst (ps : List Process) : String → Nat :=
  ps.foldl (fun f p => fun x => if x = p.id then p.burst else f x) (fun _ => 0)

/-- State of the sjf_preemptive_schedule while-loop.  current embeds the
Python variable current_process, which is either None, the string Idle, or a
process id. -/
structure SrtfState where
  rem : String → Nat
  time : Nat
  timeline : List Segment
  current : Option String
  segStart : Nat
  completed : List String

/-- The pending, not yet emitted segment of an SRTF state: the segment from
segment_start to the current time owned by current_process, if any. -/
def srtfPending (s : SrtfState) : List Segment :=
  match s.current with
  | none => []
  | some c => [⟨c, s.segStart, s.time⟩]

/-- min(available, key=lambda x: remaining[x["id"]]): Python min returns the
first element attaining the minimal key, here the fold keeps the earlier
element unless a strictly smaller key appears. -/
def minByRem (rem : String → Nat) (hd : Process) (tl : List Process) : Process :=
  tl.foldl (fun m q => if rem q.id < rem m.id then q else m) hd

/-- The switching block of the question3.py loop body: when the chosen
process differs from current_process, record the previous segment (if any)
and open a new one at the current time. -/
def srtfSwitch (s : SrtfState) (np : Process) : SrtfState :=
  if s.current ≠ some np.id then
    { s with
      timeline := s.timeline ++ srtfPending s,
      current := some np.id, segStart := s.time }
  else s

/-- The execution block of the question3.py loop body: decrement the chosen
process remaining time and advance the clock; when the process finishes,
record its segment, mark it complete and clear current_process. -/
def srtfRun (s1 : SrtfState) (np : Process) : SrtfState :=
  let rem2 := fun x => if x = np.id then s1.rem x - 1 else s1.rem x
  if rem2 np.id = 0 then
    { rem := rem2, time := s1.time + 1,
      timeline := s1.timeline ++ [⟨np.id, s1.segStart, s1.time + 1⟩],
      current := none, segStart := s1.time + 1,
      completed := insertSet s1.completed np.id }
  else { s1 with rem := rem2, time := s1.time + 1 }

/-- One iteration of the question3.py while-loop, taken when
|completed| < |processes|: compute the available processes, idle for one unit
if there are none, otherwise run the one with the smallest remaining time for
one unit, opening and closing timeline segments exactly as the source does. -/
def srtfStep (sorted : List Process) (s : SrtfState) : SrtfState :=
  let available :=
    sorted.filter (fun p => p.arrival ≤ s.time && p.id ∉ s.completed)
  match available with
  | [] =>
    if s.current ≠ some "Idle" then
      { s with
        timeline := s.timeline ++ srtfPending s,
        current := some "Idle", segStart := s.time, time := s.time + 1 }
    else { s with time := s.time + 1 }
  | hd :: tl =>
    let np := minByRem s.rem hd tl
    srtfRun (srtfSwitch s np) np

/-- The fueled while-loop of sjf_preemptive_schedule. -/
def srtfLoop (n : Nat) (sorted : List Process) :
    Nat → SrtfState → Option (List Segment)
  | 0, _ => none
  | fuel + 1, s =>
    if s.completed.length < n then srtfLoop n sorted fuel (srtfStep sorted s)
    else some s.timeline

/-- sjf_preemptive_schedule of question3.py, with fuel. -/
def sjf_preemptive_schedule (fuel : Nat) (ps : List Process) :
    Option (List Segment) :=
  srtfLoop ps.length (sortByArrival ps) fuel
    ⟨dictBurst ps, 0, [], none, 0, []⟩

/-! ### The per-unit SRTF reference of the claim -/

/-- State of the reference unit-stepper: the remaining map, the completed
set, the clock, and the per-unit owner trace recorded so far. -/
structure SrtfRefState where
  rem : String → Nat
  completed : List String
  time : Nat
  trace : List String

/-- One unit of the scheduling policy exactly as the claim words it: at every
unit of simulated time the processor, when not idle, runs the eligible
(arrived, incomplete) process with the smallest remaining time, ties going to
the earliest position in the arrival-sorted list; the chosen owner is
appended to the trace and its remaining time is decremented. -/
def srtfRefStep (sorted : List Process) (r : SrtfRefState) : SrtfRefState :=
  let available :=
    sorted.filter (fun p => p.arrival ≤ r.time && p.id ∉ r.completed)
  match available with
  | [] => { r with time := r.time + 1, trace := r.trace ++ ["Idle"] }
  | hd :: tl =>
    let np := minByRem r.rem hd tl
    { rem := fun x => if x = np.id then r.rem x - 1 else r.rem x,
      completed :=
        if r.rem np.id - 1 = 0 then insertSet r.completed np.id
        else r.completed,
      time := r.time + 1, trace := r.trace ++ [np.id] }

/-- The fueled reference loop: run unit steps until every process is
complete, then return the unit-by-unit owner trace. -/
def srtfRefLoop (n : Nat) (sorted : List Process) :
    Nat → SrtfRefState → Option (List String)
  | 0, _ => none
  | fuel + 1, r =>
    if r.completed.length < n then srtfRefLoop n sorted fuel (srtfRefStep sorted r)
    else some r.trace

/-- The reference SRTF per-unit owner trace for an input, claim-side
definition to which the source scheduler is compared. -/
def srtf_ref (fuel : Nat) (ps : List Process) : Option (List String) :=
  srtfRefLoop ps.length (sortByArrival ps) fuel ⟨dictBurst ps, [], 0, []⟩

/-- Run-length encoding of a unit trace into segments, starting the clock at
the given time: maximal runs of one owner become one segment each. -/
def rleAux (cur : String) (start t : Nat) : List String → List Segment
  | [] => [⟨cur, start, t⟩]
  | y :: ys =>
    if y = cur then rleAux cur start (t + 1) ys
    else ⟨cur, start, t⟩ :: rleAux y t (t + 1) ys

/-- Run-length encoding of a unit trace from time 0. -/
def rle : List String → List Segment
  | [] => []
  | x :: xs => rleAux x 0 1 xs

/-! ## Round Robin, question4.py -/

/-- State of the round_robin_schedule while-loop.  pending is the suffix of
the arrival-sorted list not yet reached by the arrival pointer i; Python
walks it with the repeated pattern
while i < n and processes_sorted[i]["arrival"] <= current_time, which is the
takeWhile/dropWhile split below. -/
structure RRState where
  time : Nat
  queue : List Process
  pending : List Process
  rem : String → Nat
  timeline : List Segment

/-- One iteration of the question4.py while-loop, taken while the queue or
the pending arrivals are non-empty: if the queue is empty, jump to the next
arrival emitting an Idle segment and admit everything that has arrived;
otherwise pop the queue head, run it for min(quantum, remaining) units, emit
its segment, admit the processes that arrived during the slice, and re-queue
the process behind them when it still has work left. -/
def rrStep (quantum : Nat) (s : RRState) : RRState :=
  match s.queue with
  | [] =>
    match s.pending with
    | [] => s  -- unreachable: the loop only runs while queue or pending is non-empty
    | p :: _ =>
      let na := p.arrival
      let newly := s.pending.takeWhile (fun x => x.arrival ≤ na)
      let pend2 := s.pending.dropWhile (fun x => x.arrival ≤ na)
      { time := na, queue := newly, pending := pend2, rem := s.rem,
        timeline := s.timeline ++ [⟨"Idle", s.time, na⟩] }
  | c :: rest =>
    let exec := min quantum (s.rem c.id)
    let t2 := s.time + exec
    let newly := s.pending.takeWhile (fun x => x.arrival ≤ t2)
    let pend2 := s.pending.dropWhile (fun x => x.arrival ≤ t2)
    let nrem := s.rem c.id - exec
    { time := t2,
      queue := rest ++ newly ++ (if 0 < nrem then [c] else []),
      pending := pend2,
      rem := fun x => if x = c.id then nrem else s.rem x,
      timeline := s.timeline ++ [⟨c.id, s.time, t2⟩] }

/-- The fueled while-loop of round_robin_schedule, running while the ready
queue or the pending arrivals are non-empty. -/
def rrLoop (quantum : Nat) : Nat → RRState → Option (List Segment)
  | 0, _ => none
  | fuel + 1, s =>
    if s.queue = [] ∧ s.pending = [] then some s.timeline
    else rrLoop quantum fuel (rrStep quantum s)

/-- The initial state of round_robin_schedule: sort by arrival, then admit
every process that has already arrived at time 0. -/
def rrInit (ps : List Process) : RRState :=
  let sorted := sortByArrival ps
  { time := 0,
    queue := sorted.takeWhile (fun x => x.arrival ≤ 0),
    pending := sorted.dropWhile (fun x => x.arrival ≤ 0),
    rem := dictBurst ps, timeline := [] }

/-- round_robin_schedule of question4.py, with fuel. -/
def round_robin_schedule (fuel : Nat) (ps : List Process) (quantum : Nat) :
    Option (List Segment) :=
  rrLoop quantum fuel (rrInit ps)

/-! ## Multi-processor Round Robin, question6.py

question6.py is a script with its process list, TIME_QUANTUM and NUM_PROC
hard-coded; its simulation loop reads them only through those variables, so
it is embedded as a function of the process list, the quantum and the
processor count.  Events carry the processor label k of the string
"Processor k", which the script builds as index + 1.  The script mutates a
remaining field of the process dictionaries and a per-processor dictionary
with keys proc, remaining_slice, event_start and a lazily added idle key;
remaining and remaining_slice are embedded as Int because the script would
drive them below zero on zero-burst inputs, and event_start and the idle
flag as Options because the script uses None and a missing key. -/

/-- A schedule_events entry (process_id, start_time, end_time, processor). -/
structure MEvent where
  id : String
  start : Nat
  stop : Nat
  procLabel : Nat
deriving DecidableEq, Repr

/-- The per-processor dictionary of question6.py. -/
structure MProcUnit where
  proc : Option String
  slice : Int
  eventStart : Option Nat
  idleFlag : Option Bool
deriving Repr

/-- The global state of the question6.py simulation loop. -/
structure MRRState where
  time : Nat
  queue : List String
  events : List MEvent
  finished : List String
  procs : List MProcUnit
  rem : String → Int

/-- The remaining field lookup: get_process scans the process list and
returns the first dictionary with the given id; initially remaining = burst. -/
def remInit (ps : List Process) : String → Int :=
  fun pid => ((ps.find? (fun p => p.id = pid)).map (fun p => (p.burst : Int))).getD 0

/-- The busy-update block of the question6.py processor loop: when the
processor holds a process, decrement its slice and the process remaining
time; when remaining hits 0 emit the segment and mark the process finished,
else when the slice hits 0 emit the segment and re-queue the process.
Returns the updated global state together with the processor dictionary
(which the caller writes back at position i). -/
def mrrUpdate (t : Nat) (g : MRRState) (i : Nat) : MRRState × MProcUnit :=
  let p0 := g.procs.getD i ⟨none, 0, none, none⟩
  match p0.proc with
  | none => (g, p0)
  | some pid =>
    let slice2 := p0.slice - 1
    let rem2 := fun x => if x = pid then g.rem pid - 1 else g.rem x
    if rem2 pid = 0 then
      ({ g with
         rem := rem2,
         events := g.events ++ [⟨pid, p0.eventStart.getD 0, t + 1, i + 1⟩],
         finished := insertSet g.finished pid },
       { proc := none, slice := 0, eventStart := none, idleFlag := p0.idleFlag })
    else if slice2 = 0 then
      ({ g with
         rem := rem2,
         events := g.events ++ [⟨pid, p0.eventStart.getD 0, t + 1, i + 1⟩],
         queue := g.queue ++ [pid] },
       { p0 with proc := none, slice := slice2, eventStart := none })
    else
      ({ g with rem := rem2 }, { p0 with slice := slice2 })

/-- The dispatch and idle-bookkeeping blocks of the question6.py processor
loop, run on the processor dictionary left by the busy-update block: a free
processor pops the queue head (skipping the rest of this processor turn if
that pid is already finished, as the Python continue does) and starts it
with slice min(quantum, remaining); with an empty queue it initializes the
lazy idle flag; a busy processor clears the flag.  Finally, exactly as in the
source, a free processor whose idle flag is set emits an Idle event once
global_time exceeds event_start; when event_start is None that comparison is
the Python expression global_time > None, a TypeError that kills the script,
embedded as the result none. -/
def mrrDispatch (quantum : Nat) (t : Nat) (g : MRRState) (p1 : MProcUnit)
    (i : Nat) : Option MRRState :=
  match p1.proc with
  | none =>
    match g.queue with
    | pid :: qrest =>
      if pid ∈ g.finished then
        some { g with queue := qrest, procs := g.procs.set i p1 }
      else
        let p2 : MProcUnit :=
          { proc := some pid, slice := min (quantum : Int) (g.rem pid),
            eventStart := some t, idleFlag := p1.idleFlag }
        some { g with queue := qrest, procs := g.procs.set i p2 }
    | [] =>
      let p2 :=
        if p1.idleFlag = none then
          { p1 with idleFlag := some true, eventStart := some t }
        else p1
      if p2.idleFlag = some true then
        match p2.eventStart with
        | none => none
        | some es =>
          if es < t then
            some { g with
              events := g.events ++ [⟨"Idle", es, t + 1, i + 1⟩],
              procs := g.procs.set i { p2 with eventStart := some (t + 1) } }
          else some { g with procs := g.procs.set i p2 }
      else some { g with procs := g.procs.set i p2 }
  | some _ =>
    some { g with procs := g.procs.set i { p1 with idleFlag := some false } }

/-- One full turn of the processor for-loop body for processor i: the
busy-update block followed immediately by the dispatch block of the same
processor. -/
def mrrProcStep (quantum : Nat) (t : Nat) (g : MRRState) (i : Nat) :
    Option MRRState :=
  let (g1, p1) := mrrUpdate t g i
  mrrDispatch quantum t g1 p1 i

/-- One time unit of the question6.py simulation loop: add the processes
whose arrival equals the current time to the shared queue (scanning the
process list in input order), then run the processor for-loop, then advance
the clock. -/
def mrrUnit (ps : List Process) (quantum nproc : Nat) (g : MRRState) :
    Option MRRState :=
  let g0 :=
    { g with queue := g.queue ++ (ps.filter (fun p => p.arrival = g.time)).map (·.id) }
  ((List.range nproc).foldlM (fun acc i => mrrProcStep quantum g.time acc i) g0).map
    (fun g2 => { g2 with time := g2.time + 1 })

/-- The fueled simulation loop of question6.py; none means either fuel ran
out or the script crashed on the global_time > None comparison. -/
def mrrLoop (n : Nat) (ps : List Process) (quantum nproc : Nat) :
    Nat → MRRState → Option (List MEvent)
  | 0, _ => none
  | fuel + 1, g =>
    if g.finished.length < n then
      match mrrUnit ps quantum nproc g with
      | none => none
      | some g2 => mrrLoop n ps quantum nproc fuel g2
    else some g.events

/-- The initial state of the question6.py simulation. -/
def mrrInit (ps : List Process) (nproc : Nat) : MRRState :=
  { time := 0, queue := [], events := [], finished := [],
    procs := List.replicate nproc ⟨none, 0, none, none⟩, rem := remInit ps }

/-- The question6.py simulation as a function of its inputs. -/
def mrr_schedule (fuel : Nat) (ps : List Process) (quantum nproc : Nat) :
    Option (List MEvent) :=
  mrrLoop ps.length ps quantum nproc fuel (mrrInit ps nproc)

/-- Sum of the durations of the non-Idle events of a given process id over
all processors, the multi-processor counterpart of sumDur. -/
def sumDurM (evs : List MEvent) (pid : String) : Nat :=
  ((evs.filter (fun e => e.id = pid && e.id ≠ "Idle")).map
    (fun e => e.stop - e.start)).sum

/-! ### The two-phase unit semantics worded by the claim

The claim about the multi-processor scheduler asks that, within each time
unit, all processor-state updates be completed for every processor before
any now-free processor dispatches from the shared queue, dispatch then
proceeding by ascending processor index.  The following variant implements
exactly that wording, reusing the same update and dispatch blocks; it is the
claim-side definition the source unit step is compared against. -/

/-- One time unit under the claim wording: admit arrivals; then run the
busy-update block of every processor in ascending index order; then run the
dispatch and idle-bookkeeping block of every processor in ascending index
order; then advance the clock. -/
def mrrTwoPhaseUnit (ps : List Process) (quantum nproc : Nat) (g : MRRState) :
    Option MRRState :=
  let g0 :=
    { g with queue := g.queue ++ (ps.filter (fun p => p.arrival = g.time)).map (·.id) }
  let g1 :=
    (List.range nproc).foldl
      (fun acc i =>
        let up := mrrUpdate g.time acc i
        { up.1 with procs := up.1.procs.set i up.2 })
      g0
  ((List.range nproc).foldlM
      (fun acc i =>
        mrrDispatch quantum g.time acc (acc.procs.getD i ⟨none, 0, none, none⟩) i)
      g1).map
    (fun g2 => { g2 with time := g2.time + 1 })

/-- The fueled loop of the two-phase variant. -/
def mrrTwoPhaseLoop (n : Nat) (ps : List Process) (quantum nproc : Nat) :
    Nat → MRRState → Option (List MEvent)
  | 0, _ => none
  | fuel + 1, g =>
    if g.finished.length < n then
      match mrrTwoPhaseUnit ps quantum nproc g with
      | none => none
      | some g2 => mrrTwoPhaseLoop n ps quantum nproc fuel g2
    else some g.events

/-- The multi-processor simulation under the claim two-phase wording. -/
def mrr_twophase (fuel : Nat) (ps : List Process) (quantum nproc : Nat) :
    Option (List MEvent) :=
  mrrTwoPhaseLoop ps.length ps quantum nproc fuel (mrrInit ps nproc)

/-- Sequential processor rounds: each processor in the given index list, in
order, performs its own busy update immediately followed by its own dispatch
before the next processor is touched.  This is the actual control flow of
the question6.py for-loop, written as explicit recursion. -/
def mrrRound (quantum t : Nat) : List Nat → MRRState → Option MRRState
  | [], g => some g
  | i :: is, g =>
    match mrrProcStep quantum t g i with
    | none => none
    | some g2 => mrrRound quantum t is g2

/-! ## Store-threaded wrappers for the single-processor schedulers

The four single-processor scheduler functions of questions 1 to 4 receive
the process list and only ever read it: every assignment in their bodies
targets a local variable (timeline, current_time, ready queues, the fresh
remaining dictionary keyed by id, completed sets).  No key of any input
process dictionary is written and no element of the input list is replaced.
The wrappers below therefore return, next to the timeline, the input store
after all the writes the source performs on it, namely the store unchanged;
a reviewer can check against the sources that no statement writes through
the input. -/

/-- fcfs_schedule together with the input store it leaves behind. -/
def fcfs_run (ps : List Process) : List Segment × List Process :=
  (fcfs_schedule ps, ps)

/-- sjf_non_preemptive_schedule together with the input store it leaves
behind. -/
def sjf_np_run (fuel : Nat) (ps : List Process) :
    Option (List Segment) × List Process :=
  (sjf_non_preemptive_schedule fuel ps, ps)

/-- sjf_preemptive_schedule together with the input store it leaves behind. -/
def srtf_run (fuel : Nat) (ps : List Process) :
    Option (List Segment) × List Process :=
  (sjf_preemptive_schedule fuel ps, ps)

/-- round_robin_schedule together with the input store it leaves behind. -/
def rr_run (fuel : Nat) (ps : List Process) (quantum : Nat) :
    Option (List Segment) × List Process :=
  (round_robin_schedule fuel ps quantum, ps)

/-! ## Orders, invariants and encodings used by the theorems -/

/-- a is strictly earlier than b in the admission order of the SJF and SRTF
schedulers: earlier arrival, or equal arrival and earlier position in the
original input list ps. -/
def ArrBefore (ps : List Process) (a b : Process) : Prop :=
  a.arrival < b.arrival ∨ (a.arrival = b.arrival ∧ Precedes ps a b)

/-- a is scheduled no later than b by the non-preemptive SJF tie-break rule
of the claim: smaller burst, or equal burst and earlier arrival, or equal
burst and arrival and no later original input position. -/
def SjfBefore (ps : List Process) (a b : Process) : Prop :=
  a.burst < b.burst ∨ (a.burst = b.burst ∧ (a = b ∨ ArrBefore ps a b))

/-- The initial state of the sjf_non_preemptive_schedule loop. -/
def sjfInit : SjfState := ⟨0, [], [], []⟩

/-- Loop invariant of sjf_non_preemptive_schedule.  ready holds distinct
uncompleted input processes; among equal bursts it lists them in admission
order (the stability fact behind the Python stable sort); the ghost bound t0
says that everything that arrived strictly before t0 has been admitted or
completed; the timeline holds exactly one segment, of length burst, for each
completed process and none for the others; completed is a duplicate-free set
of input ids; the timeline never puts two segments of one owner side by
side, and an Idle segment is never last while no process is ready. -/
def SjfInv (ps : List Process) (s : SjfState) : Prop :=
  (∀ a ∈ s.ready, a ∈ ps ∧ a.id ∉ s.completed) ∧
  s.ready.Nodup ∧
  s.ready.Pairwise (fun a b => a.burst = b.burst → ArrBefore ps a b) ∧
  (∃ t0, t0 ≤ s.time ∧ (∀ a ∈ s.ready, a.arrival < t0) ∧
    ∀ p ∈ ps, p.arrival < t0 → p.id ∉ s.completed → p ∈ s.ready) ∧
  (∀ cid ∈ s.completed, cid ∈ ps.map (·.id)) ∧
  s.completed.Nodup ∧
  (∀ p ∈ ps,
    (p.id ∉ s.completed ∧ s.timeline.filter (fun sg => sg.id = p.id) = []) ∨
    (p.id ∈ s.completed ∧
      ∃ st, s.timeline.filter (fun sg => sg.id = p.id) =
        [⟨p.id, st, st + p.burst⟩])) ∧
  (∀ sg ∈ s.timeline, sg.id = "Idle" ∨ sg.id ∈ ps.map (·.id)) ∧
  List.Chain' (fun a b => a.id ≠ b.id) s.timeline ∧
  (∀ lseg, s.timeline.getLast? = some lseg → lseg.id ≠ "Idle" →
    lseg.id ∈ s.completed) ∧
  (∀ lseg, s.timeline.getLast? = some lseg → lseg.id = "Idle" →
    sjfAdmit (sortByArrival ps) s ≠ [])

/-- Loop invariant of round_robin_schedule.  pending is the still-unreached,
arrival-sorted tail of future arrivals; queued processes have arrived and
have work left; every input process is queued, pending, or out of work; no
process appears twice in queue plus pending. -/
def RRInv (ps : List Process) (s : RRState) : Prop :=
  s.pending.Pairwise (fun a b => a.arrival ≤ b.arrival) ∧
  (∀ x ∈ s.pending, s.time < x.arrival ∧ x ∈ ps ∧ 0 < s.rem x.id) ∧
  (∀ x ∈ s.queue, x.arrival ≤ s.time ∧ x ∈ ps ∧ 0 < s.rem x.id) ∧
  (∀ p ∈ ps, p ∈ s.queue ∨ p ∈ s.pending ∨ s.rem p.id = 0) ∧
  (s.queue ++ s.pending).Nodup

/-- Relation tying a state of the question3.py loop to a state of the
per-unit reference stepper after the same number of units: both hold the
same clock, remaining map and completed set; the emitted timeline together
with the still-open segment is the run-length encoding of the reference
trace; and enough bookkeeping about the last trace entry, remaining time
accounting and the completed set to keep the simulation going. -/
def SrtfRel (ps : List Process) (s : SrtfState) (r : SrtfRefState) : Prop :=
  s.rem = r.rem ∧
  s.completed = r.completed ∧
  s.time = r.time ∧
  r.trace.length = r.time ∧
  s.timeline ++ srtfPending s = rle r.trace ∧
  (∀ c, s.current = some c → r.trace.getLast? = some c ∧ s.segStart < s.time) ∧
  (s.current = none →
    r.trace = [] ∨ ∃ lid, r.trace.getLast? = some lid ∧ lid ∈ r.completed) ∧
  (∀ p ∈ ps, r.trace.count p.id + r.rem p.id = p.burst) ∧
  (∀ p ∈ ps, p.id ∈ r.completed ↔ r.rem p.id = 0) ∧
  (∀ cid ∈ r.completed, cid ∈ ps.map (·.id)) ∧
  r.completed.Nodup ∧
  ((∀ p ∈ ps, p.id ∈ s.completed) → s.current = none)

/-- Increment the end time of the last segment of a list by one unit. -/
def extendLast : List Segment → List Segment
  | [] => []
  | [sg] => [⟨sg.id, sg.start, sg.stop + 1⟩]
  | sg :: rest => sg :: extendLast rest

/-- The input of the example runs of questions 2 to 4 of the repository. -/
def exInput : List Process :=
  [⟨"P1", 0, 5⟩, ⟨"P2", 3, 1⟩, ⟨"P3", 10, 11⟩, ⟨"P4", 12, 5⟩, ⟨"P5", 15, 12⟩]

/-- The states the sjf_non_preemptive_schedule while-loop actually reaches
from its initial state: the loop body runs only while some process is still
uncompleted. -/
inductive SjfReach (ps : List Process) : SjfState → Prop
  | init : SjfReach ps sjfInit
  | step (s : SjfState) : SjfReach ps s → s.completed.length < ps.length →
      SjfReach ps (sjfStep (sortByArrival ps) s)

/-- The states the round_robin_schedule while-loop actually reaches from its
initial state: the loop body runs only while the queue or the pending
arrivals are non-empty. -/
inductive RRReach (ps : List Process) (quantum : Nat) : RRState → Prop
  | init : RRReach ps quantum (rrInit ps)
  | step (s : RRState) : RRReach ps quantum s →
      (s.queue ≠ [] ∨ s.pending ≠ []) → RRReach ps quantum (rrStep quantum s)

/-! ## Helper lemmas -/

lemma precedes_shift (p : Process) (l : List Process) {a b : Process}
    (h : Precedes l a b) : Precedes (p :: l) a b := by
  obtain ⟨i, j, hij, ha, hb⟩ := h
  exact ⟨i + 1, j + 1, by omega, by simpa using ha, by simpa using hb⟩

lemma pairwise_precedes (l : List Process) : l.Pairwise (Precedes l) := by
  induction l with
  | nil => exact .nil
  | cons p rest ih =>
    refine List.pairwise_cons.mpr ⟨?_, ?_⟩
    · intro b hb
      obtain ⟨j, hj⟩ := List.get?_of_mem hb
      exact ⟨0, j + 1, by omega, rfl, by simpa using hj⟩
    · exact ih.imp (fun h => precedes_shift p rest h)

lemma orderedInsert_pairwise_lex (k : Process → Nat) (Q : Process → Process → Prop)
    (a : Process) (l : List Process)
    (hp : l.Pairwise (fun x y => k x < k y ∨ (k x = k y ∧ Q x y)))
    (ha : ∀ b ∈ l, k a = k b → Q a b) :
    (List.orderedInsert (fun x y => k x ≤ k y) a l).Pairwise
      (fun x y => k x < k y ∨ (k x = k y ∧ Q x y)) := by
  induction l with
  | nil => simp [List.orderedInsert]
  | cons b bs ih =>
    by_cases hab : k a ≤ k b
    · rw [List.orderedInsert, if_pos hab]
      refine List.pairwise_cons.mpr ⟨?_, hp⟩
      intro x hx
      have hax : k a ≤ k x := by
        rcases List.mem_cons.mp hx with rfl | hxbs
        · exact hab
        · have hbx := (List.pairwise_cons.mp hp).1 x hxbs
          rcases hbx with h | ⟨h, _⟩ <;> omega
      rcases Nat.lt_or_ge (k a) (k x) with h | h
      · exact Or.inl h
      · exact Or.inr ⟨Nat.le_antisymm hax h, ha x hx (Nat.le_antisymm hax h)⟩
    · rw [List.orderedInsert, if_neg hab]
      have hb2 : k b < k a := Nat.lt_of_not_le hab
      refine List.pairwise_cons.mpr
        ⟨?_, ih (List.pairwise_cons.mp hp).2
          (fun x hx he => ha x (List.mem_cons_of_mem _ hx) he)⟩
      intro x hx
      rcases (List.mem_orderedInsert _).mp hx with rfl | hxbs
      · exact Or.inl hb2
      · exact (List.pairwise_cons.mp hp).1 x hxbs

lemma insertionSort_pairwise_lex (k : Process → Nat) (Q : Process → Process → Prop)
    (l : List Process) (h : l.Pairwise (fun x y => k x = k y → Q x y)) :
    (List.insertionSort (fun x y => k x ≤ k y) l).Pairwise
      (fun x y => k x < k y ∨ (k x = k y ∧ Q x y)) := by
  induction l with
  | nil => simp [List.insertionSort]
  | cons a as ih =>
    rw [List.insertionSort]
    refine orderedInsert_pairwise_lex k Q a _ (ih (List.pairwise_cons.mp h).2) ?_
    intro b hb he
    have hb2 : b ∈ as := (List.perm_insertionSort _ as).subset hb
    exact (List.pairwise_cons.mp h).1 b hb2 he

lemma sortByArrival_pairwise (ps : List Process) :
    (sortByArrival ps).Pairwise (ArrBefore ps) := by
  have hpre : ps.Pairwise (fun x y => x.arrival = y.arrival → Precedes ps x y) :=
    (pairwise_precedes ps).imp (fun h => fun _ => h)
  have h := insertionSort_pairwise_lex (fun p => p.arrival) (Precedes ps) ps hpre
  exact h.imp (fun hx => hx)

lemma sortByArrival_perm (ps : List Process) : (sortByArrival ps).Perm ps :=
  List.perm_insertionSort _ ps

lemma mem_insertSet {c : List String} {x y : String} :
    y ∈ insertSet c x ↔ y ∈ c ∨ y = x := by
  unfold insertSet
  by_cases h : x ∈ c
  · simp only [if_pos h]
    constructor
    · exact Or.inl
    · rintro (hy | rfl)
      · exact hy
      · exact h
  · simp [if_neg h]

lemma nodup_insertSet {c : List String} (hc : c.Nodup) (x : String) :
    (insertSet c x).Nodup := by
  unfold insertSet
  by_cases h : x ∈ c
  · simpa [if_pos h]
  · simp only [if_neg h]
    simpa [List.nodup_append] using ⟨hc, fun hx => h hx⟩

lemma length_insertSet_lt {c : List String} {x : String} (hx : x ∉ c) :
    c.length < (insertSet c x).length := by
  unfold insertSet
  simp [if_neg hx]

lemma id_inj {ps : List Process} (hn : (ps.map (·.id)).Nodup)
    {a b : Process} (ha : a ∈ ps) (hb : b ∈ ps) (h : a.id = b.id) : a = b :=
  List.inj_on_of_nodup_map hn ha hb h

lemma dictFold_notin (l : List Process) (f : String → Nat) (x : String)
    (hx : x ∉ l.map (·.id)) :
    (l.foldl (fun g p => fun y => if y = p.id then p.burst else g y) f) x = f x := by
  induction l generalizing f with
  | nil => rfl
  | cons p rest ih =>
    have hx1 : x ≠ p.id := by
      intro h; exact hx (by simp [h])
    have hx2 : x ∉ rest.map (·.id) := by
      intro h; exact hx (by simp [h])
    rw [List.foldl_cons, ih _ hx2]
    simp [hx1]

lemma dictBurst_lookup {ps : List Process} (hn : (ps.map (·.id)).Nodup)
    {p : Process} (hp : p ∈ ps) : dictBurst ps p.id = p.burst := by
  unfold dictBurst
  suffices H : ∀ f : String → Nat,
      (ps.foldl (fun g q => fun y => if y = q.id then q.burst else g y) f) p.id
        = p.burst from H _
  induction ps with
  | nil => cases hp
  | cons q rest ih =>
    intro f
    have hn2 : q.id ∉ rest.map (·.id) ∧ (rest.map (·.id)).Nodup := by
      simpa using hn
    rcases List.mem_cons.mp hp with rfl | hpr
    · rw [List.foldl_cons, dictFold_notin rest _ _ hn2.1]
      simp
    · exact ih hn2.2 hpr _

lemma foldl_min_le (l : List Process) (a : Nat) :
    (l.foldl (fun m q => min m q.arrival) a) ≤ a ∧
      ∀ q ∈ l, (l.foldl (fun m q => min m q.arrival) a) ≤ q.arrival := by
  induction l generalizing a with
  | nil => simp
  | cons p rest ih =>
    rw [List.foldl_cons]
    obtain ⟨h1, h2⟩ := ih (min a p.arrival)
    refine ⟨le_trans h1 (Nat.min_le_left _ _), ?_⟩
    intro q hq
    rcases List.mem_cons.mp hq with rfl | hqr
    · exact le_trans h1 (Nat.min_le_right _ _)
    · exact h2 q hqr

lemma foldl_min_mem (l : List Process) (a : Nat) :
    (l.foldl (fun m q => min m q.arrival) a) = a ∨
      ∃ q ∈ l, (l.foldl (fun m q => min m q.arrival) a) = q.arrival := by
  induction l generalizing a with
  | nil => simp
  | cons p rest ih =>
    rw [List.foldl_cons]
    rcases ih (min a p.arrival) with h | ⟨q, hq, hval⟩
    · rcases Nat.le_total a p.arrival with hle | hle
      · exact Or.inl (by rw [h]; exact Nat.min_eq_left hle)
      · exact Or.inr ⟨p, List.mem_cons_self _ _, by rw [h]; exact Nat.min_eq_right hle⟩
    · exact Or.inr ⟨q, List.mem_cons_of_mem _ hq, hval⟩

lemma minArrival_spec {l : List Process} (hl : l ≠ []) :
    (∃ q ∈ l, minArrival l = q.arrival) ∧ ∀ q ∈ l, minArrival l ≤ q.arrival := by
  match l, hl with
  | p :: rest, _ =>
    unfold minArrival
    constructor
    · rcases foldl_min_mem rest p.arrival with h | ⟨q, hq, hval⟩
      · exact ⟨p, List.mem_cons_self _ _, h⟩
      · exact ⟨q, List.mem_cons_of_mem _ hq, hval⟩
    · intro q hq
      rcases List.mem_cons.mp hq with rfl | hqr
      · exact (foldl_min_le rest q.arrival).1
      · exact (foldl_min_le rest p.arrival).2 q hqr

lemma admitFold_structure (C : Process → Prop) [DecidablePred C] :
    ∀ (l acc : List Process),
      ∃ t,
        (l.foldl
          (fun rq p => if C p then if p ∉ rq then rq ++ [p] else rq else rq)
          acc) = acc ++ t ∧
        t.Sublist l ∧ ∀ x ∈ t, C x ∧ x ∉ acc := by
  intro l
  induction l with
  | nil => exact fun acc => ⟨[], by simp, List.nil_sublist _, by simp⟩
  | cons p rest ih =>
    intro acc
    rw [List.foldl_cons]
    by_cases hC : C p
    · by_cases hm : p ∉ acc
      · rw [if_pos hC, if_pos hm]
        obtain ⟨t, ht, hsub, hall⟩ := ih (acc ++ [p])
        refine ⟨p :: t, by rw [ht]; simp, hsub.cons₂ p, ?_⟩
        intro x hx
        rcases List.mem_cons.mp hx with rfl | hxt
        · exact ⟨hC, hm⟩
        · exact ⟨(hall x hxt).1,
            fun hxa => (hall x hxt).2 (List.mem_append_left _ hxa)⟩
      · rw [if_pos hC, if_neg hm]
        obtain ⟨t, ht, hsub, hall⟩ := ih acc
        exact ⟨t, ht, hsub.cons p, hall⟩
    · rw [if_neg hC]
      obtain ⟨t, ht, hsub, hall⟩ := ih acc
      exact ⟨t, ht, hsub.cons p, hall⟩

lemma admitFold_mem (C : Process → Prop) [DecidablePred C]
    (l acc : List Process) {x : Process}
    (hx : x ∈ l.foldl
      (fun rq p => if C p then if p ∉ rq then rq ++ [p] else rq else rq) acc) :
    x ∈ acc ∨ (x ∈ l ∧ C x) := by
  obtain ⟨t, ht, hsub, hall⟩ := admitFold_structure C l acc
  rw [ht] at hx
  rcases List.mem_append.mp hx with h | h
  · exact Or.inl h
  · exact Or.inr ⟨hsub.subset h, (hall x h).1⟩

lemma admitFold_sub (C : Process → Prop) [DecidablePred C]
    (l acc : List Process) {x : Process} (hx : x ∈ acc) :
    x ∈ l.foldl
      (fun rq p => if C p then if p ∉ rq then rq ++ [p] else rq else rq) acc := by
  obtain ⟨t, ht, _, _⟩ := admitFold_structure C l acc
  rw [ht]
  exact List.mem_append_left _ hx

lemma admitFold_cover (C : Process → Prop) [DecidablePred C] :
    ∀ (l acc : List Process) (p : Process), p ∈ l → C p →
      p ∈ l.foldl
        (fun rq p => if C p then if p ∉ rq then rq ++ [p] else rq else rq) acc := by
  intro l
  induction l with
  | nil => intro acc p hp; cases hp
  | cons q rest ih =>
    intro acc p hp hC
    rw [List.foldl_cons]
    rcases List.mem_cons.mp hp with rfl | hpr
    · refine admitFold_sub C rest _ ?_
      rw [if_pos hC]
      by_cases hm : p ∉ acc
      · rw [if_pos hm]; exact List.mem_append_right _ (by simp)
      · rw [if_neg hm]; exact Decidable.not_not.mp hm
    · exact ih _ p hpr hC

lemma admitFold_nodup (C : Process → Prop) [DecidablePred C] :
    ∀ (l acc : List Process), acc.Nodup →
      (l.foldl
        (fun rq p => if C p then if p ∉ rq then rq ++ [p] else rq else rq)
        acc).Nodup := by
  intro l
  induction l with
  | nil => exact fun acc h => h
  | cons p rest ih =>
    intro acc hacc
    rw [List.foldl_cons]
    refine ih _ ?_
    by_cases hC : C p
    · by_cases hm : p ∉ acc
      · rw [if_pos hC, if_pos hm]
        simpa [List.nodup_append] using ⟨hacc, hm⟩
      · rw [if_pos hC, if_neg hm]; exact hacc
    · rw [if_neg hC]; exact hacc

lemma length_ids_le {ps : List Process} (hn : (ps.map (·.id)).Nodup)
    {c : List String} (h : ∀ p ∈ ps, p.id ∈ c) : ps.length ≤ c.length := by
  have hsub : (ps.map (·.id)) ⊆ c := by
    intro x hx
    obtain ⟨p, hp, rfl⟩ := List.mem_map.mp hx
    exact h p hp
  have hle := (List.subperm_of_subset hn hsub).length_le
  simpa using hle

lemma completed_all {ps : List Process}
    {c : List String} (hsub : ∀ cid ∈ c, cid ∈ ps.map (·.id)) (hnd : c.Nodup)
    (hlen : ps.length ≤ c.length) : ∀ p ∈ ps, p.id ∈ c := by
  have hsp : c.Subperm (ps.map (·.id)) :=
    List.subperm_of_subset hnd (fun x hx => hsub x hx)
  have hperm : c.Perm (ps.map (·.id)) :=
    hsp.perm_of_length_le (by simpa using hlen)
  intro p hp
  exact hperm.mem_iff.mpr (List.mem_map_of_mem _ hp)

lemma exists_uncompleted {ps : List Process} (hn : (ps.map (·.id)).Nodup)
    {c : List String} (hlen : c.length < ps.length) :
    ∃ p ∈ ps, p.id ∉ c := by
  by_contra h
  push_neg at h
  exact absurd (length_ids_le hn h) (by omega)

lemma length_le_sum {xs : List Nat} (h : ∀ x ∈ xs, 1 ≤ x) :
    xs.length ≤ xs.sum := by
  induction xs with
  | nil => simp
  | cons a rest ih =>
    have ha := h a (List.mem_cons_self _ _)
    have := ih (fun x hx => h x (List.mem_cons_of_mem _ hx))
    simp only [List.length_cons, List.sum_cons]
    omega

lemma mem_lt_of_sum {xs : List Nat} (h : ∀ x ∈ xs, 1 ≤ x)
    (hlen : 2 ≤ xs.length) {B : Nat} (hsum : xs.sum = B) {x : Nat}
    (hx : x ∈ xs) : x < B := by
  subst hsum
  induction xs with
  | nil => cases hx
  | cons a rest ih =>
    have hrl : rest.length ≤ rest.sum :=
      length_le_sum (fun y hy => h y (List.mem_cons_of_mem _ hy))
    rcases List.mem_cons.mp hx with rfl | hxr
    · simp only [List.sum_cons]
      have : 1 ≤ rest.length := by
        have := hlen; simp only [List.length_cons] at this; omega
      omega
    · have hx1 : x ≤ rest.sum := List.le_sum_of_mem hxr
      have ha := h a (List.mem_cons_self _ _)
      simp only [List.sum_cons]
      omega

lemma sumDur_append (tl1 tl2 : List Segment) (pid : String) :
    sumDur (tl1 ++ tl2) pid = sumDur tl1 pid + sumDur tl2 pid := by
  simp [sumDur, List.filter_append]

lemma rleAux_ne_nil (cur : String) (start t : Nat) (ys : List String) :
    rleAux cur start t ys ≠ [] := by
  induction ys generalizing cur start t with
  | nil => simp [rleAux]
  | cons y ys2 ih =>
    simp only [rleAux]
    by_cases h : y = cur
    · rw [if_pos h]; exact ih cur start (t + 1)
    · rw [if_neg h]; simp

lemma rleAux_head (cur : String) (start : Nat) :
    ∀ (t : Nat) (ys : List String),
      ∃ stp, (rleAux cur start t ys).head? = some ⟨cur, start, stp⟩ := by
  intro t ys
  induction ys generalizing t with
  | nil => exact ⟨t, rfl⟩
  | cons y ys2 ih =>
    simp only [rleAux]
    by_cases h : y = cur
    · rw [if_pos h]; exact ih (t + 1)
    · rw [if_neg h]; exact ⟨t, rfl⟩

lemma extendLast_cons_ne_nil (a : Segment) {M : List Segment} (hM : M ≠ []) :
    extendLast (a :: M) = a :: extendLast M := by
  cases M with
  | nil => cases hM rfl
  | cons b M2 => rfl

lemma extendLast_append (L : List Segment) (sg : Segment) :
    extendLast (L ++ [sg]) = L ++ [⟨sg.id, sg.start, sg.stop + 1⟩] := by
  induction L with
  | nil => rfl
  | cons a L2 ih =>
    rw [List.cons_append,
      extendLast_cons_ne_nil a (by simp), ih, List.cons_append]

lemma getLastD_cons (y : String) (ys2 : List String) :
    ∀ cur, (y :: ys2).getLast?.getD cur = ys2.getLast?.getD y := by
  induction ys2 generalizing y with
  | nil => intro cur; rfl
  | cons b l ih =>
    intro cur
    rw [List.getLast?_cons_cons, ih b cur, ih b y]

lemma rleAux_append (x : String) :
    ∀ (ys : List String) (cur : String) (start t : Nat),
      rleAux cur start t (ys ++ [x]) =
        if x = ys.getLast?.getD cur then extendLast (rleAux cur start t ys)
        else rleAux cur start t ys ++ [⟨x, t + ys.length, t + ys.length + 1⟩] := by
  intro ys
  induction ys with
  | nil =>
    intro cur start t
    simp only [List.nil_append, List.getLast?_nil, Option.getD_none,
      List.length_nil, Nat.add_zero]
    by_cases h : x = cur
    · rw [if_pos h]
      have hL : rleAux cur start t [x] = rleAux cur start (t + 1) [] := by
        simp only [rleAux]
        rw [if_pos h]
      rw [hL]
      rfl
    · rw [if_neg h]
      have hL : rleAux cur start t [x] =
          ⟨cur, start, t⟩ :: rleAux x t (t + 1) [] := by
        simp only [rleAux]
        rw [if_neg h]
      rw [hL]
      rfl
  | cons y ys2 ih =>
    intro cur start t
    rw [getLastD_cons]
    by_cases hyc : y = cur
    · have hstep : rleAux cur start t ((y :: ys2) ++ [x]) =
          rleAux cur start (t + 1) (ys2 ++ [x]) := by
        rw [List.cons_append]
        simp only [rleAux]
        rw [if_pos hyc]
      have hstep2 : rleAux cur start t (y :: ys2) =
          rleAux cur start (t + 1) ys2 := by
        simp only [rleAux]
        rw [if_pos hyc]
      have hlen : t + 1 + ys2.length = t + (y :: ys2).length := by
        simp only [List.length_cons]
        omega
      rw [hstep, ih cur start (t + 1), hstep2, hyc, hlen]
      simp [List.length_cons]
    · have hstep : rleAux cur start t ((y :: ys2) ++ [x]) =
          ⟨cur, start, t⟩ :: rleAux y t (t + 1) (ys2 ++ [x]) := by
        rw [List.cons_append]
        simp only [rleAux]
        rw [if_neg hyc]
      have hstep2 : rleAux cur start t (y :: ys2) =
          ⟨cur, start, t⟩ :: rleAux y t (t + 1) ys2 := by
        simp only [rleAux]
        rw [if_neg hyc]
      have hlen : t + 1 + ys2.length = t + (y :: ys2).length := by
        simp only [List.length_cons]
        omega
      rw [hstep, ih y t (t + 1), hstep2]
      by_cases hx : x = ys2.getLast?.getD y
      · rw [if_pos hx, if_pos hx,
          extendLast_cons_ne_nil _ (rleAux_ne_nil y t (t + 1) ys2)]
      · rw [if_neg hx, if_neg hx, hlen, List.cons_append]

lemma rle_append_last {tr : List String} {lid : String}
    (h : tr.getLast? = some lid) (x : String) :
    rle (tr ++ [x]) = if x = lid then extendLast (rle tr)
      else rle tr ++ [⟨x, tr.length, tr.length + 1⟩] := by
  cases tr with
  | nil => cases h
  | cons z zs =>
    have hgd : zs.getLast?.getD z = lid := by
      have h2 := getLastD_cons z zs z
      rw [h] at h2
      simpa using h2.symm
    have hlen : 1 + zs.length = (z :: zs).length := by
      simp only [List.length_cons]
      omega
    rw [List.cons_append, rle, rle, rleAux_append x zs z 0 1, hgd, hlen]

lemma rle_singleton_append (x : String) : rle ([] ++ [x]) = [⟨x, 0, 1⟩] := by
  simp [rle, rleAux]

lemma count_cons_str (a b : String) (l : List String) :
    (b :: l).count a = l.count a + if b = a then 1 else 0 := by
  simp [List.count_cons]

lemma sumDur_cons (sg : Segment) (tl : List Segment) (pid : String) :
    sumDur (sg :: tl) pid =
      (if sg.id = pid ∧ pid ≠ "Idle" then sg.stop - sg.start else 0) +
        sumDur tl pid := by
  by_cases h : sg.id = pid ∧ pid ≠ "Idle"
  · obtain ⟨h1, h2⟩ := h
    subst h1
    simp [sumDur, List.filter_cons, h2]
  · rw [if_neg h]
    by_cases h1 : sg.id = pid
    · have h2 : pid = "Idle" := by
        by_contra hc; exact h ⟨h1, hc⟩
      subst h2
      simp [sumDur, List.filter_cons, h1]
    · simp [sumDur, List.filter_cons, h1]

lemma sumDur_rleAux {pid : String} (hpid : pid ≠ "Idle") :
    ∀ (ys : List String) (cur : String) (start t : Nat), start ≤ t →
      sumDur (rleAux cur start t ys) pid =
        (if cur = pid then t - start else 0) + ys.count pid := by
  intro ys
  induction ys with
  | nil =>
    intro cur start t hst
    by_cases h : cur = pid
    · simp [rleAux, sumDur_cons, sumDur, h, hpid]
    · simp [rleAux, sumDur_cons, sumDur, h, hpid]
  | cons y ys2 ih =>
    intro cur start t hst
    simp only [rleAux]
    by_cases hyc : y = cur
    · rw [if_pos hyc, ih cur start (t + 1) (by omega), count_cons_str, hyc]
      by_cases h : cur = pid
      · simp only [if_pos h]
        omega
      · simp only [if_neg h]
        omega
    · rw [if_neg hyc, sumDur_cons, ih y t (t + 1) (by omega), count_cons_str]
      have hseg : (⟨cur, start, t⟩ : Segment).id = cur := rfl
      by_cases h : y = pid <;> by_cases hc : cur = pid <;>
        simp only [hseg, h, hc, hpid, ne_eq, not_false_iff, and_true,
          if_true, if_false, and_self, if_pos, if_neg] <;>
        omega

lemma sumDur_rle {pid : String} (hpid : pid ≠ "Idle") (tr : List String) :
    sumDur (rle tr) pid = tr.count pid := by
  cases tr with
  | nil => simp [rle, sumDur]
  | cons z zs =>
    rw [rle, sumDur_rleAux hpid zs z 0 1 (by omega), count_cons_str]
    by_cases h : z = pid
    · simp [h]; omega
    · simp [h]

lemma chain_rleAux :
    ∀ (ys : List String) (cur : String) (start t : Nat),
      List.Chain' (fun a b => a.id ≠ b.id) (rleAux cur start t ys) := by
  intro ys
  induction ys with
  | nil => intro cur start t; simp [rleAux]
  | cons y ys2 ih =>
    intro cur start t
    simp only [rleAux]
    by_cases h : y = cur
    · rw [if_pos h]; exact ih cur start (t + 1)
    · rw [if_neg h]
      obtain ⟨stp, hh⟩ := rleAux_head y t (t + 1) ys2
      refine List.chain'_cons'.mpr ⟨?_, ih y t (t + 1)⟩
      intro z hz
      rw [hh] at hz
      cases hz
      exact fun hc => h hc.symm

lemma chain_rle (tr : List String) :
    List.Chain' (fun a b => a.id ≠ b.id) (rle tr) := by
  cases tr with
  | nil => simp [rle]
  | cons z zs => exact chain_rleAux zs z 0 1

lemma pos_rleAux :
    ∀ (ys : List String) (cur : String) (start t : Nat), start < t →
      ∀ sg ∈ rleAux cur start t ys, sg.start < sg.stop := by
  intro ys
  induction ys with
  | nil =>
    intro cur start t hst sg hsg
    simp only [rleAux, List.mem_singleton] at hsg
    subst hsg; exact hst
  | cons y ys2 ih =>
    intro cur start t hst sg hsg
    simp only [rleAux] at hsg
    by_cases h : y = cur
    · rw [if_pos h] at hsg
      exact ih cur start (t + 1) (by omega) sg hsg
    · rw [if_neg h] at hsg
      rcases List.mem_cons.mp hsg with rfl | hsg2
      · exact hst
      · exact ih y t (t + 1) (by omega) sg hsg2

lemma pos_rle (tr : List String) : ∀ sg ∈ rle tr, sg.start < sg.stop := by
  cases tr with
  | nil => simp [rle]
  | cons z zs => exact pos_rleAux zs z 0 1 (by omega)

lemma filter_sumDur {pid : String} (hpid : pid ≠ "Idle") (tl : List Segment) :
    sumDur tl pid =
      ((tl.filter (fun sg => sg.id = pid)).map (fun sg => sg.stop - sg.start)).sum := by
  unfold sumDur
  congr 1
  congr 1
  apply List.filter_congr
  intro sg _
  by_cases h : sg.id = pid
  · simp [h, hpid]
  · simp [h]

/-! ## FCFS lemmas -/

lemma fcfsGo_head_id (l : List Process) (t : Nat) {sg : Segment}
    (h : (fcfsGo l t).head? = some sg) :
    sg.id = "Idle" ∨ ∃ p ∈ l, sg.id = p.id := by
  cases l with
  | nil => cases h
  | cons p rest =>
    by_cases hc : t < p.arrival
    · rw [fcfsGo, if_pos hc] at h
      cases h
      exact Or.inl rfl
    · rw [fcfsGo, if_neg hc] at h
      cases h
      exact Or.inr ⟨p, List.mem_cons_self _ _, rfl⟩

lemma fcfsGo_chain (l : List Process) (t : Nat)
    (hids : (l.map (·.id)).Nodup) (hni : ∀ p ∈ l, p.id ≠ "Idle") :
    List.Chain' (fun a b => a.id ≠ b.id) (fcfsGo l t) := by
  induction l generalizing t with
  | nil => simp [fcfsGo]
  | cons p rest ih =>
    have hn2 : (∀ q ∈ rest, p.id ≠ q.id) ∧ (rest.map (·.id)).Nodup := by
      constructor
      · intro q hq he
        have : p.id ∈ rest.map (·.id) := he ▸ List.mem_map_of_mem _ hq
        exact (List.nodup_cons.mp (by simpa using hids)).1 this
      · exact (List.nodup_cons.mp (by simpa using hids)).2
    have hrest := ih (p.arrival + p.burst) hn2.2
      (fun q hq => hni q (List.mem_cons_of_mem _ hq))
    have hrest2 := ih (t + p.burst) hn2.2
      (fun q hq => hni q (List.mem_cons_of_mem _ hq))
    have hnext : ∀ t2, (t2 = p.arrival + p.burst ∨ t2 = t + p.burst) →
        ∀ y, (fcfsGo rest t2).head? = some y → p.id ≠ y.id := by
      intro t2 _ y hy he
      rcases fcfsGo_head_id rest t2 hy with hidle | ⟨q, hq, hqe⟩
      · exact hni p (List.mem_cons_self _ _) (he.trans hidle)
      · exact hn2.1 q hq (he.trans hqe)
    by_cases hc : t < p.arrival
    · rw [fcfsGo, if_pos hc]
      refine List.chain'_cons.mpr ⟨?_, ?_⟩
      · exact fun he => hni p (List.mem_cons_self _ _) he.symm
      · refine List.chain'_cons'.mpr ⟨?_, hrest⟩
        intro y hy
        exact hnext _ (Or.inl rfl) y hy
    · rw [fcfsGo, if_neg hc]
      refine List.chain'_cons'.mpr ⟨?_, hrest2⟩
      intro y hy
      exact hnext _ (Or.inr rfl) y hy

/-! ## SJF non-preemptive lemmas -/

lemma sjfAdmit_spec (sorted : List Process) (s : SjfState) :
    ∃ t, sjfAdmit sorted s = s.ready ++ t ∧ t.Sublist sorted ∧
      ∀ x ∈ t, (x.id ∉ s.completed ∧ x.arrival ≤ s.time) ∧ x ∉ s.ready :=
  admitFold_structure
    (fun q => q.id ∉ s.completed ∧ q.arrival ≤ s.time) sorted s.ready

lemma sjfAdmit_mem {sorted : List Process} {s : SjfState} {x : Process}
    (hx : x ∈ sjfAdmit sorted s) :
    x ∈ s.ready ∨ (x ∈ sorted ∧ x.id ∉ s.completed ∧ x.arrival ≤ s.time) := by
  have h := admitFold_mem
    (fun q => q.id ∉ s.completed ∧ q.arrival ≤ s.time) sorted s.ready hx
  rcases h with h | ⟨h1, h2⟩
  · exact Or.inl h
  · exact Or.inr ⟨h1, h2.1, h2.2⟩

lemma sjfAdmit_cover {sorted : List Process} {s : SjfState} {p : Process}
    (hp : p ∈ sorted) (h1 : p.id ∉ s.completed) (h2 : p.arrival ≤ s.time) :
    p ∈ sjfAdmit sorted s :=
  admitFold_cover
    (fun q => q.id ∉ s.completed ∧ q.arrival ≤ s.time) sorted s.ready p hp ⟨h1, h2⟩

lemma sjfAdmit_nodup {sorted : List Process} {s : SjfState}
    (h : s.ready.Nodup) : (sjfAdmit sorted s).Nodup :=
  admitFold_nodup
    (fun q => q.id ∉ s.completed ∧ q.arrival ≤ s.time) sorted s.ready h

lemma burstSort_pairwise (ps : List Process) (l : List Process)
    (h : l.Pairwise (fun a b => a.burst = b.burst → ArrBefore ps a b)) :
    (List.insertionSort (fun a b => a.burst ≤ b.burst) l).Pairwise
      (fun a b => a.burst < b.burst ∨ (a.burst = b.burst ∧ ArrBefore ps a b)) :=
  insertionSort_pairwise_lex (fun p => p.burst) (ArrBefore ps) l h

lemma sjfAdmit_props {ps : List Process} {s : SjfState}
    (hv : ValidInput ps) (hinv : SjfInv ps s) :
    (∀ x ∈ sjfAdmit (sortByArrival ps) s,
      x ∈ ps ∧ x.id ∉ s.completed ∧ x.arrival ≤ s.time) ∧
    (sjfAdmit (sortByArrival ps) s).Nodup ∧
    (sjfAdmit (sortByArrival ps) s).Pairwise
      (fun a b => a.burst = b.burst → ArrBefore ps a b) ∧
    (∀ q ∈ ps, q.arrival ≤ s.time → q.id ∉ s.completed →
      q ∈ sjfAdmit (sortByArrival ps) s) := by
  obtain ⟨hsub1, hnd, hstab, ⟨t0, ht0, hta, hcov⟩, hrest⟩ := hinv
  refine ⟨?_, sjfAdmit_nodup hnd, ?_, ?_⟩
  · intro x hx
    rcases sjfAdmit_mem hx with h | ⟨h1, h2, h3⟩
    · obtain ⟨hxps, hxc⟩ := hsub1 x h
      exact ⟨hxps, hxc, le_trans (Nat.le_of_lt (hta x h)) ht0⟩
    · exact ⟨(sortByArrival_perm ps).subset h1, h2, h3⟩
  · obtain ⟨t, ht, hsubl, hall⟩ := sjfAdmit_spec (sortByArrival ps) s
    rw [ht, List.pairwise_append]
    refine ⟨hstab, ?_, ?_⟩
    · have hp1 : t.Pairwise (ArrBefore ps) :=
        (sortByArrival_pairwise ps).sublist hsubl
      exact hp1.imp (fun h => fun _ => h)
    · intro a ha x hx _
      have hxps : x ∈ ps := (sortByArrival_perm ps).subset (hsubl.subset hx)
      have hx0 : ¬ x.arrival < t0 := by
        intro hlt
        exact (hall x hx).2 (hcov x hxps hlt (hall x hx).1.1)
      exact Or.inl (Nat.lt_of_lt_of_le (hta a ha) (Nat.le_of_not_lt hx0))
  · intro q hq h1 h2
    exact sjfAdmit_cover ((sortByArrival_perm ps).mem_iff.mpr hq) h2 h1

lemma sjf_decision {ps : List Process} {s : SjfState} (hv : ValidInput ps)
    (hinv : SjfInv ps s) {c : Process} {rest : List Process}
    (hsrq : List.insertionSort (fun a b => a.burst ≤ b.burst)
      (sjfAdmit (sortByArrival ps) s) = c :: rest) :
    (∀ q ∈ sjfAdmit (sortByArrival ps) s, SjfBefore ps c q) ∧
    c ∈ sjfAdmit (sortByArrival ps) s ∧
    (c :: rest).Pairwise
      (fun a b => a.burst < b.burst ∨ (a.burst = b.burst ∧ ArrBefore ps a b)) ∧
    (c :: rest).Perm (sjfAdmit (sortByArrival ps) s) := by
  have hpw := burstSort_pairwise ps _ (sjfAdmit_props hv hinv).2.2.1
  rw [hsrq] at hpw
  have hperm := List.perm_insertionSort (fun a b : Process => a.burst ≤ b.burst)
    (sjfAdmit (sortByArrival ps) s)
  rw [hsrq] at hperm
  refine ⟨?_, hperm.subset (List.mem_cons_self _ _), hpw, hperm⟩
  intro q hq
  have hq2 : q ∈ c :: rest := hperm.mem_iff.mpr hq
  rcases List.mem_cons.mp hq2 with rfl | hqr
  · exact Or.inr ⟨rfl, Or.inl rfl⟩
  · rcases (List.pairwise_cons.mp hpw).1 q hqr with h | ⟨he, ha⟩
    · exact Or.inl h
    · exact Or.inr ⟨he, Or.inr ha⟩

lemma sjfStep_busy {sorted : List Process} {s : SjfState} {c : Process}
    {rest : List Process}
    (hsrq : List.insertionSort (fun a b => a.burst ≤ b.burst) (sjfAdmit sorted s)
      = c :: rest) :
    sjfStep sorted s =
      { time := s.time + c.burst, ready := rest,
        completed := insertSet s.completed c.id,
        timeline := s.timeline ++ [⟨c.id, s.time, s.time + c.burst⟩] } := by
  have hrq : sjfAdmit sorted s ≠ [] := by
    intro h
    rw [h] at hsrq
    simp [List.insertionSort] at hsrq
  unfold sjfStep
  rcases hadm0 : sjfAdmit sorted s with _ | ⟨hd, tl⟩
  · exact absurd hadm0 hrq
  · rw [hadm0] at hsrq
    simp only [hsrq]

lemma sjfStep_idle {sorted : List Process} {s : SjfState}
    (hadm0 : sjfAdmit sorted s = []) :
    sjfStep sorted s =
      { time := minArrival (sorted.filter (fun p => p.id ∉ s.completed)),
        ready := [], completed := s.completed,
        timeline := s.timeline ++
          [⟨"Idle", s.time,
            minArrival (sorted.filter (fun p => p.id ∉ s.completed))⟩] } := by
  unfold sjfStep
  rw [hadm0]

lemma pairwise_lex_to_imp {ps : List Process} {l : List Process}
    (h : l.Pairwise
      (fun a b => a.burst < b.burst ∨ (a.burst = b.burst ∧ ArrBefore ps a b))) :
    l.Pairwise (fun a b => a.burst = b.burst → ArrBefore ps a b) := by
  refine h.imp ?_
  rintro a b (hlt | ⟨_, ha⟩) he
  · omega
  · exact ha

lemma sjfInv_step_busy {ps : List Process} {s : SjfState} (hv : ValidInput ps)
    (hinv : SjfInv ps s) {c : Process} {rest : List Process}
    (hsrq : List.insertionSort (fun a b => a.burst ≤ b.burst)
      (sjfAdmit (sortByArrival ps) s) = c :: rest) :
    SjfInv ps (sjfStep (sortByArrival ps) s) := by
  obtain ⟨hq_min, hc_mem, hpw, hperm⟩ := sjf_decision hv hinv hsrq
  obtain ⟨hps_all, hrq_nd, hrq_pw, hcover⟩ := sjfAdmit_props hv hinv
  obtain ⟨hne, hids, hbpos, hnid⟩ := hv
  obtain ⟨hsub1, hnd, hstab, ⟨t0, ht0, hta, hcov⟩, hcsub, hcnd, hfilter,
    hsid, hchain, hlastp, hlasti⟩ := hinv
  obtain ⟨hcps, hcnc, hcarr⟩ := hps_all c hc_mem
  have hcr_nd : (c :: rest).Nodup := hperm.nodup_iff.mpr hrq_nd
  have hrest_rq : ∀ a ∈ rest, a ∈ sjfAdmit (sortByArrival ps) s :=
    fun a ha => hperm.subset (List.mem_cons_of_mem _ ha)
  rw [sjfStep_busy hsrq]
  refine ⟨?_, ?_, ?_, ?_, ?_, ?_, ?_, ?_, ?_, ?_, ?_⟩
  · intro a ha
    obtain ⟨haps, hanc, _⟩ := hps_all a (hrest_rq a ha)
    refine ⟨haps, ?_⟩
    intro hmem
    rcases mem_insertSet.mp hmem with h | h
    · exact hanc h
    · have hac : a = c := id_inj hids haps hcps h
      exact (List.nodup_cons.mp hcr_nd).1 (hac ▸ ha)
  · exact (List.nodup_cons.mp hcr_nd).2
  · exact pairwise_lex_to_imp (List.pairwise_cons.mp hpw).2
  · refine ⟨s.time + 1, ?_, ?_, ?_⟩
    · show s.time + 1 ≤ s.time + c.burst
      have := hbpos c hcps
      omega
    · intro a ha
      have ha2 : a ∈ rest := ha
      have := (hps_all a (hrest_rq a ha2)).2.2
      show a.arrival < s.time + 1
      omega
    · intro p hp harr hnc
      have hnc1 : p.id ∉ insertSet s.completed c.id := hnc
      have hnc0 : p.id ∉ s.completed :=
        fun h => hnc1 (mem_insertSet.mpr (Or.inl h))
      have hne_c : p.id ≠ c.id :=
        fun h => hnc1 (mem_insertSet.mpr (Or.inr h))
      have harr2 : p.arrival < s.time + 1 := harr
      have hprq : p ∈ sjfAdmit (sortByArrival ps) s :=
        hcover p hp (by omega) hnc0
      rcases List.mem_cons.mp (hperm.mem_iff.mpr hprq) with rfl | h
      · exact absurd rfl hne_c
      · exact h
  · intro cid hcid
    rcases mem_insertSet.mp hcid with h | rfl
    · exact hcsub cid h
    · exact List.mem_map_of_mem _ hcps
  · exact nodup_insertSet hcnd c.id
  · intro p hp
    by_cases hpc : p.id = c.id
    · have hpec : p = c := id_inj hids hp hcps hpc
      subst hpec
      refine Or.inr ⟨mem_insertSet.mpr (Or.inr rfl), s.time, ?_⟩
      rcases hfilter p hp with ⟨_, hfe⟩ | ⟨hcm, _⟩
      · simp only [List.filter_append, hfe, List.nil_append, List.filter_cons]
        simp
      · exact absurd hcm hcnc
    · have hmm : p.id ∈ insertSet s.completed c.id ↔ p.id ∈ s.completed := by
        rw [mem_insertSet]
        exact ⟨fun h => h.resolve_right (fun h2 => hpc h2), Or.inl⟩
      have hfe : (s.timeline ++
            [(⟨c.id, s.time, s.time + c.burst⟩ : Segment)]).filter
            (fun sg => sg.id = p.id) =
          s.timeline.filter (fun sg => sg.id = p.id) := by
        rw [List.filter_append]
        have : (⟨c.id, s.time, s.time + c.burst⟩ : Segment).id ≠ p.id :=
          fun h => hpc h.symm
        simp [List.filter_cons, this]
      rcases hfilter p hp with ⟨h1, h2⟩ | ⟨h1, st, h2⟩
      · exact Or.inl ⟨fun h => h1 (hmm.mp h), by rw [hfe]; exact h2⟩
      · exact Or.inr ⟨hmm.mpr h1, st, by rw [hfe]; exact h2⟩
  · intro sg hsg
    rcases List.mem_append.mp hsg with h | h
    · exact hsid sg h
    · rcases List.mem_singleton.mp h with rfl
      exact Or.inr (List.mem_map_of_mem _ hcps)
  · rw [List.chain'_append]
    refine ⟨hchain, List.chain'_singleton _, ?_⟩
    intro x hx y hy
    have hx2 : s.timeline.getLast? = some x := hx
    have hy2 : (⟨c.id, s.time, s.time + c.burst⟩ : Segment) = y := by
      simpa using hy
    subst hy2
    show x.id ≠ c.id
    by_cases hxi : x.id = "Idle"
    · rw [hxi]
      exact fun h => hnid c hcps h.symm
    · have := hlastp x hx2 hxi
      exact fun h => hcnc (h ▸ this)
  · intro lseg hl _
    have hl2 : lseg = ⟨c.id, s.time, s.time + c.burst⟩ := by
      have := List.getLast?_concat (a := (⟨c.id, s.time, s.time + c.burst⟩ : Segment))
        s.timeline
      rw [this] at hl
      exact (Option.some_inj.mp hl).symm
    subst hl2
    exact mem_insertSet.mpr (Or.inr rfl)
  · intro lseg hl hidle
    have hl2 : lseg = ⟨c.id, s.time, s.time + c.burst⟩ := by
      have := List.getLast?_concat (a := (⟨c.id, s.time, s.time + c.burst⟩ : Segment))
        s.timeline
      rw [this] at hl
      exact (Option.some_inj.mp hl).symm
    subst hl2
    exact absurd hidle (hnid c hcps)

lemma sjfInv_step_idle {ps : List Process} {s : SjfState} (hv : ValidInput ps)
    (hinv : SjfInv ps s) (hlen : s.completed.length < ps.length)
    (hadm0 : sjfAdmit (sortByArrival ps) s = []) :
    SjfInv ps (sjfStep (sortByArrival ps) s) := by
  obtain ⟨hne, hids, hbpos, hnid⟩ := hv
  obtain ⟨hsub1, hnd, hstab, ⟨t0, ht0, hta, hcov⟩, hcsub, hcnd, hfilter,
    hsid, hchain, hlastp, hlasti⟩ := hinv
  have hready : s.ready = [] := by
    obtain ⟨t, ht, _, _⟩ := sjfAdmit_spec (sortByArrival ps) s
    rw [hadm0] at ht
    exact (List.append_eq_nil.mp ht.symm).1
  -- the set of uncompleted processes is non-empty and its minimum arrival
  -- is at least t0
  obtain ⟨w, hwps, hwnc⟩ := exists_uncompleted hids hlen
  have hwf : w ∈ (sortByArrival ps).filter (fun p => p.id ∉ s.completed) := by
    rw [List.mem_filter]
    exact ⟨(sortByArrival_perm ps).mem_iff.mpr hwps, by simpa using hwnc⟩
  have hfne : (sortByArrival ps).filter (fun p => p.id ∉ s.completed) ≠ [] :=
    fun h => by rw [h] at hwf; cases hwf
  obtain ⟨⟨q, hqf, hqa⟩, hmin⟩ := minArrival_spec hfne
  have hqsort : q ∈ sortByArrival ps ∧ q.id ∉ s.completed := by
    have := List.mem_filter.mp hqf
    exact ⟨this.1, by simpa using this.2⟩
  have huncomp_ge : ∀ x ∈ ps, x.id ∉ s.completed → t0 ≤ x.arrival := by
    intro x hx hxnc
    by_contra hlt
    have := hcov x hx (Nat.lt_of_not_le hlt) hxnc
    rw [hready] at this
    cases this
  rw [sjfStep_idle hadm0]
  set na := minArrival ((sortByArrival ps).filter (fun p => p.id ∉ s.completed))
    with hna
  refine ⟨?_, ?_, ?_, ?_, ?_, ?_, ?_, ?_, ?_, ?_, ?_⟩
  · intro a ha; cases ha
  · exact List.nodup_nil
  · exact List.Pairwise.nil
  · refine ⟨t0, ?_, ?_, ?_⟩
    · show t0 ≤ na
      rw [hqa]
      exact huncomp_ge q ((sortByArrival_perm ps).subset hqsort.1) hqsort.2
    · intro a ha; cases ha
    · intro p hp harr hnc
      have hnc2 : p.id ∉ s.completed := hnc
      have harr2 : p.arrival < t0 := harr
      have := hcov p hp harr2 hnc2
      rw [hready] at this
      cases this
  · exact hcsub
  · exact hcnd
  · intro p hp
    have hfe : (s.timeline ++ [(⟨"Idle", s.time, na⟩ : Segment)]).filter
        (fun sg => sg.id = p.id) = s.timeline.filter (fun sg => sg.id = p.id) := by
      rw [List.filter_append]
      have : (⟨"Idle", s.time, na⟩ : Segment).id ≠ p.id :=
        fun h => hnid p hp h.symm
      simp [List.filter_cons, this]
    rcases hfilter p hp with ⟨h1, h2⟩ | ⟨h1, st, h2⟩
    · exact Or.inl ⟨h1, by rw [hfe]; exact h2⟩
    · exact Or.inr ⟨h1, st, by rw [hfe]; exact h2⟩
  · intro sg hsg
    rcases List.mem_append.mp hsg with h | h
    · exact hsid sg h
    · rcases List.mem_singleton.mp h with rfl
      exact Or.inl rfl
  · rw [List.chain'_append]
    refine ⟨hchain, List.chain'_singleton _, ?_⟩
    intro x hx y hy
    have hx2 : s.timeline.getLast? = some x := hx
    have hy2 : (⟨"Idle", s.time, na⟩ : Segment) = y := by simpa using hy
    subst hy2
    show x.id ≠ "Idle"
    intro hxi
    exact hlasti x hx2 hxi hadm0
  · intro lseg hl hni
    have hl2 : lseg = ⟨"Idle", s.time, na⟩ := by
      have hcat := List.getLast?_concat (a := (⟨"Idle", s.time, na⟩ : Segment))
        s.timeline
      rw [hcat] at hl
      exact (Option.some_inj.mp hl).symm
    subst hl2
    exact absurd rfl hni
  · intro lseg hl _
    -- the next admission is non-empty: q has arrived by na and is uncompleted
    intro hadm2
    have hqmem : q ∈ sjfAdmit (sortByArrival ps)
        { time := na, ready := [], completed := s.completed,
          timeline := s.timeline ++ [⟨"Idle", s.time, na⟩] } :=
      sjfAdmit_cover hqsort.1 hqsort.2 (Nat.le_of_eq hqa.symm)
    rw [hadm2] at hqmem
    cases hqmem

lemma sjfInv_init (ps : List Process) : SjfInv ps sjfInit := by
  refine ⟨?_, List.nodup_nil, List.Pairwise.nil, ⟨0, Nat.le_refl 0, ?_, ?_⟩,
    ?_, List.nodup_nil, ?_, ?_, List.chain'_nil, ?_, ?_⟩
  · intro a ha; cases ha
  · intro a ha; cases ha
  · intro p _ harr _
    exact absurd harr (Nat.not_lt_zero _)
  · intro cid hcid; cases hcid
  · intro p _
    exact Or.inl ⟨fun h => absurd h (List.not_mem_nil _), rfl⟩
  · intro sg hsg; cases hsg
  · intro lseg hl; cases hl
  · intro lseg hl; cases hl

lemma sjfLoop_facts {ps : List Process} (hv : ValidInput ps) :
    ∀ (fuel : Nat) (s : SjfState), SjfInv ps s →
      ∀ tl, sjfLoop ps.length (sortByArrival ps) fuel s = some tl →
        (∀ p ∈ ps, ∃ st,
          tl.filter (fun sg => sg.id = p.id) = [⟨p.id, st, st + p.burst⟩]) ∧
        List.Chain' (fun a b => a.id ≠ b.id) tl := by
  intro fuel
  induction fuel with
  | zero => intro s _ tl h; cases h
  | succ fuel ih =>
    intro s hinv tl h
    rw [sjfLoop] at h
    by_cases hlen : s.completed.length < ps.length
    · rw [if_pos hlen] at h
      rcases hsrq : List.insertionSort (fun a b => a.burst ≤ b.burst)
          (sjfAdmit (sortByArrival ps) s) with _ | ⟨c, rest⟩
      · have hadm : sjfAdmit (sortByArrival ps) s = [] := by
          have hp := List.perm_insertionSort
            (fun a b : Process => a.burst ≤ b.burst)
            (sjfAdmit (sortByArrival ps) s)
          rw [hsrq] at hp
          exact hp.symm.eq_nil
        exact ih _ (sjfInv_step_idle hv hinv hlen hadm) tl h
      · exact ih _ (sjfInv_step_busy hv hinv hsrq) tl h
    · rw [if_neg hlen] at h
      have htl : s.timeline = tl := Option.some_inj.mp h
      subst htl
      obtain ⟨_, _, _, _, hcsub, hcnd, hfilter, _, hchain, _, _⟩ := hinv
      refine ⟨?_, hchain⟩
      intro p hp
      have hall := completed_all hcsub hcnd (Nat.le_of_not_lt hlen)
      rcases hfilter p hp with ⟨hnc, _⟩ | ⟨_, st, hst⟩
      · exact absurd (hall p hp) hnc
      · exact ⟨st, hst⟩

/-! ## SRTF lemmas -/

lemma minByRem_mem (rem : String → Nat) (hd : Process) (tl : List Process) :
    minByRem rem hd tl ∈ hd :: tl := by
  unfold minByRem
  induction tl generalizing hd with
  | nil => simp
  | cons q rest ih =>
    rw [List.foldl_cons]
    by_cases h : rem q.id < rem hd.id
    · rw [if_pos h]
      rcases List.mem_cons.mp (ih q) with h2 | h2
      · rw [h2]
        exact List.mem_cons_of_mem _ (List.mem_cons_self _ _)
      · exact List.mem_cons_of_mem _ (List.mem_cons_of_mem _ h2)
    · rw [if_neg h]
      rcases List.mem_cons.mp (ih hd) with h2 | h2
      · rw [h2]
        exact List.mem_cons_self _ _
      · exact List.mem_cons_of_mem _ (List.mem_cons_of_mem _ h2)

lemma srtfStep_avail_nil {sorted : List Process} {s : SrtfState}
    (h : sorted.filter (fun p => p.arrival ≤ s.time && p.id ∉ s.completed) = []) :
    srtfStep sorted s =
      if s.current ≠ some "Idle" then
        { s with
          timeline := s.timeline ++ srtfPending s,
          current := some "Idle", segStart := s.time, time := s.time + 1 }
      else { s with time := s.time + 1 } := by
  unfold srtfStep
  rw [h]

lemma srtfStep_avail_cons {sorted : List Process} {s : SrtfState} {hd : Process}
    {tl : List Process}
    (h : sorted.filter (fun p => p.arrival ≤ s.time && p.id ∉ s.completed)
      = hd :: tl) :
    srtfStep sorted s =
      srtfRun (srtfSwitch s (minByRem s.rem hd tl)) (minByRem s.rem hd tl) := by
  unfold srtfStep
  rw [h]

lemma srtfSwitch_ne {s : SrtfState} {np : Process}
    (h : s.current ≠ some np.id) :
    srtfSwitch s np =
      { s with
        timeline := s.timeline ++ srtfPending s,
        current := some np.id, segStart := s.time } := by
  unfold srtfSwitch
  rw [if_pos h]

lemma srtfSwitch_eq {s : SrtfState} {np : Process}
    (h : s.current = some np.id) : srtfSwitch s np = s := by
  unfold srtfSwitch
  rw [if_neg (not_not_intro h)]

lemma srtfRun_complete {s1 : SrtfState} {np : Process}
    (h : s1.rem np.id - 1 = 0) :
    srtfRun s1 np =
      { rem := fun x => if x = np.id then s1.rem x - 1 else s1.rem x,
        time := s1.time + 1,
        timeline := s1.timeline ++ [⟨np.id, s1.segStart, s1.time + 1⟩],
        current := none, segStart := s1.time + 1,
        completed := insertSet s1.completed np.id } := by
  unfold srtfRun
  rw [if_pos (show (if np.id = np.id then s1.rem np.id - 1 else s1.rem np.id)
    = 0 by rw [if_pos rfl]; exact h)]

lemma srtfRun_not_complete {s1 : SrtfState} {np : Process}
    (h : s1.rem np.id - 1 ≠ 0) :
    srtfRun s1 np =
      { s1 with
        rem := fun x => if x = np.id then s1.rem x - 1 else s1.rem x,
        time := s1.time + 1 } := by
  unfold srtfRun
  rw [if_neg (show ¬ (if np.id = np.id then s1.rem np.id - 1 else s1.rem np.id)
    = 0 by rw [if_pos rfl]; exact h)]

lemma srtfRefStep_avail_nil {sorted : List Process} {r : SrtfRefState}
    (h : sorted.filter (fun p => p.arrival ≤ r.time && p.id ∉ r.completed) = []) :
    srtfRefStep sorted r =
      { r with time := r.time + 1, trace := r.trace ++ ["Idle"] } := by
  unfold srtfRefStep
  rw [h]

lemma srtfRefStep_avail_cons {sorted : List Process} {r : SrtfRefState}
    {hd : Process} {tl : List Process}
    (h : sorted.filter (fun p => p.arrival ≤ r.time && p.id ∉ r.completed)
      = hd :: tl) :
    srtfRefStep sorted r =
      { rem := fun x =>
          if x = (minByRem r.rem hd tl).id then r.rem x - 1 else r.rem x,
        completed :=
          if r.rem (minByRem r.rem hd tl).id - 1 = 0 then
            insertSet r.completed (minByRem r.rem hd tl).id
          else r.completed,
        time := r.time + 1,
        trace := r.trace ++ [(minByRem r.rem hd tl).id] } := by
  unfold srtfRefStep
  rw [h]

lemma srtfPending_none {s : SrtfState} (h : s.current = none) :
    srtfPending s = [] := by
  unfold srtfPending
  rw [h]

lemma srtfPending_some {s : SrtfState} {c : String} (h : s.current = some c) :
    srtfPending s = [⟨c, s.segStart, s.time⟩] := by
  unfold srtfPending
  rw [h]

lemma count_concat_str (l : List String) (x y : String) :
    (l ++ [x]).count y = l.count y + (if x = y then 1 else 0) := by
  rw [List.count_append, count_cons_str]
  simp

lemma idle_not_completed {ps : List Process} (hnid : ∀ p ∈ ps, p.id ≠ "Idle")
    {c : List String} (hcsub : ∀ cid ∈ c, cid ∈ ps.map (·.id)) :
    "Idle" ∉ c := by
  intro h
  obtain ⟨p, hp, hpe⟩ := List.mem_map.mp (hcsub _ h)
  exact hnid p hp hpe

lemma srtfRel_step_nil {ps : List Process} (hv : ValidInput ps) {s : SrtfState}
    {r : SrtfRefState} (hrel : SrtfRel ps s r)
    (hlen : s.completed.length < ps.length)
    (hA : (sortByArrival ps).filter
      (fun p => p.arrival ≤ r.time && p.id ∉ r.completed) = []) :
    SrtfRel ps (srtfStep (sortByArrival ps) s)
      (srtfRefStep (sortByArrival ps) r) := by
  obtain ⟨hne, hids, hbpos, hnid⟩ := hv
  obtain ⟨hrem, hcomp, htime, htlen, hrle, hcur, hnone, hcount, hciff, hcsub,
    hcnd, hterm⟩ := hrel
  have hnotall : ¬ ∀ p ∈ ps, p.id ∈ s.completed := by
    intro hall
    exact absurd (length_ids_le hids hall) (by omega)
  have hAs : (sortByArrival ps).filter
      (fun p => p.arrival ≤ s.time && p.id ∉ s.completed) = [] := by
    rw [htime, hcomp]
    exact hA
  rw [srtfStep_avail_nil hAs, srtfRefStep_avail_nil hA]
  have hcount2 : ∀ p ∈ ps,
      (r.trace ++ ["Idle"]).count p.id + r.rem p.id = p.burst := by
    intro p hp
    rw [count_concat_str, if_neg (fun h => hnid p hp h.symm)]
    have := hcount p hp
    omega
  have htlen2 : (r.trace ++ ["Idle"]).length = r.time + 1 := by
    rw [List.length_append, htlen]
    rfl
  have hlast_idle : ∀ c2 : String, (some "Idle" : Option String) = some c2 →
      (r.trace ++ ["Idle"]).getLast? = some c2 := by
    intro c2 hc2
    rw [← Option.some_inj.mp hc2, List.getLast?_concat]
  rcases hc : s.current with _ | c
  · -- current_process is None: open an Idle segment
    rw [if_pos (show (none : Option String) ≠ some "Idle" by simp)]
    refine ⟨hrem, hcomp, by show s.time + 1 = r.time + 1; rw [htime], htlen2,
      ?_, ?_, ?_, hcount2, hciff, hcsub, hcnd, ?_⟩
    · show (s.timeline ++ srtfPending s) ++
        [⟨"Idle", s.time, s.time + 1⟩] = rle (r.trace ++ ["Idle"])
      rw [srtfPending_none hc, List.append_nil] at hrle
      rw [srtfPending_none hc, List.append_nil]
      rcases hnone hc with htr | ⟨lid, hlast, hlidc⟩
      · have hs0 : s.time = 0 := by
          rw [htime, ← htlen, htr]
          rfl
        have ht0 : s.timeline = [] := by
          rw [htr] at hrle
          simpa [rle] using hrle
        rw [htr, ht0, hs0]
        rfl
      · have hlid_ne : "Idle" ≠ lid := by
          intro h
          exact idle_not_completed hnid hcsub (h ▸ hlidc)
        rw [rle_append_last hlast "Idle", if_neg hlid_ne, ← hrle, htlen,
          ← htime]
    · intro c2 hc2
      exact ⟨hlast_idle c2 hc2, by show s.time < s.time + 1; omega⟩
    · intro h
      exact Option.noConfusion h
    · intro hall
      exact absurd (fun p hp => hall p hp) hnotall
  · by_cases hcidle : c = "Idle"
    · subst hcidle
      rw [if_neg (show ¬ (some "Idle" : Option String) ≠ some "Idle" by simp)]
      refine ⟨hrem, hcomp, by show s.time + 1 = r.time + 1; rw [htime], htlen2,
        ?_, ?_, ?_, hcount2, hciff, hcsub, hcnd, ?_⟩
      · show s.timeline ++ [⟨"Idle", s.segStart, s.time + 1⟩] =
          rle (r.trace ++ ["Idle"])
        rw [rle_append_last (hcur "Idle" hc).1 "Idle", if_pos rfl, ← hrle,
          srtfPending_some hc, extendLast_append]
      · intro c2 hc2
        refine ⟨hlast_idle c2 hc2, ?_⟩
        show s.segStart < s.time + 1
        have := (hcur "Idle" hc).2
        omega
      · intro h
        exact Option.noConfusion h
      · intro hall
        exact absurd (fun p hp => hall p hp) hnotall
    · rw [if_pos (show (some c : Option String) ≠ some "Idle" by
        simpa using hcidle)]
      refine ⟨hrem, hcomp, by show s.time + 1 = r.time + 1; rw [htime], htlen2,
        ?_, ?_, ?_, hcount2, hciff, hcsub, hcnd, ?_⟩
      · show (s.timeline ++ srtfPending s) ++
          [⟨"Idle", s.time, s.time + 1⟩] = rle (r.trace ++ ["Idle"])
        have hid_ne : "Idle" ≠ c := fun h => hcidle h.symm
        rw [rle_append_last (hcur c hc).1 "Idle", if_neg hid_ne, ← hrle,
          htlen, ← htime]
      · intro c2 hc2
        exact ⟨hlast_idle c2 hc2, by show s.time < s.time + 1; omega⟩
      · intro h
        exact Option.noConfusion h
      · intro hall
        exact absurd (fun p hp => hall p hp) hnotall

lemma srtfRel_step_cons {ps : List Process} (hv : ValidInput ps) {s : SrtfState}
    {r : SrtfRefState} (hrel : SrtfRel ps s r)
    (hlen : s.completed.length < ps.length) {hd : Process} {tl : List Process}
    (hA : (sortByArrival ps).filter
      (fun p => p.arrival ≤ r.time && p.id ∉ r.completed) = hd :: tl) :
    SrtfRel ps (srtfStep (sortByArrival ps) s)
      (srtfRefStep (sortByArrival ps) r) := by
  obtain ⟨hne, hids, hbpos, hnid⟩ := hv
  obtain ⟨hrem, hcomp, htime, htlen, hrle, hcur, hnone, hcount, hciff, hcsub,
    hcnd, hterm⟩ := hrel
  have hnotall : ¬ ∀ p ∈ ps, p.id ∈ s.completed := by
    intro hall
    exact absurd (length_ids_le hids hall) (by omega)
  have hAs : (sortByArrival ps).filter
      (fun p => p.arrival ≤ s.time && p.id ∉ s.completed) = hd :: tl := by
    rw [htime, hcomp]
    exact hA
  rw [srtfStep_avail_cons hAs, srtfRefStep_avail_cons hA, hrem]
  set np := minByRem r.rem hd tl with hnpdef
  have hnpA : np ∈ hd :: tl := minByRem_mem r.rem hd tl
  have hnpF : np ∈ (sortByArrival ps).filter
      (fun p => p.arrival ≤ r.time && p.id ∉ r.completed) := by
    rw [hA]
    exact hnpA
  have hnp_ps : np ∈ ps :=
    (sortByArrival_perm ps).subset (List.mem_filter.mp hnpF).1
  have hnp2 : np.arrival ≤ r.time ∧ np.id ∉ r.completed := by
    have h2 := (List.mem_filter.mp hnpF).2
    simpa using h2
  have hnp_rem : r.rem np.id ≠ 0 := fun h0 => hnp2.2 ((hciff np hnp_ps).mpr h0)
  have hnp_ncs : np.id ∉ s.completed := by
    rw [hcomp]
    exact hnp2.2
  have htr_last : (r.trace ++ [np.id]).getLast? = some np.id :=
    List.getLast?_concat _
  have htlen2 : (r.trace ++ [np.id]).length = r.time + 1 := by
    rw [List.length_append, htlen]
    rfl
  have hcount2 : ∀ p ∈ ps, (r.trace ++ [np.id]).count p.id +
      (if p.id = np.id then r.rem p.id - 1 else r.rem p.id) = p.burst := by
    intro p hp
    rw [count_concat_str]
    by_cases hpe : p.id = np.id
    · rw [if_pos hpe.symm, if_pos hpe]
      have hce := hcount p hp
      have hnz : r.rem p.id ≠ 0 := by
        rw [hpe]
        exact hnp_rem
      omega
    · rw [if_neg (fun h => hpe h.symm), if_neg hpe]
      have hce := hcount p hp
      omega
  have hciff_pos : (r.rem np.id - 1 = 0) → ∀ p ∈ ps,
      (p.id ∈ insertSet r.completed np.id ↔
        (if p.id = np.id then r.rem p.id - 1 else r.rem p.id) = 0) := by
    intro hfin p hp
    by_cases hpe : p.id = np.id
    · rw [if_pos hpe, hpe]
      exact iff_of_true (mem_insertSet.mpr (Or.inr rfl)) hfin
    · rw [if_neg hpe]
      rw [mem_insertSet]
      constructor
      · intro h
        rcases h with h | h
        · exact (hciff p hp).mp h
        · exact absurd h hpe
      · intro h
        exact Or.inl ((hciff p hp).mpr h)
  have hciff_neg : (r.rem np.id - 1 ≠ 0) → ∀ p ∈ ps,
      (p.id ∈ r.completed ↔
        (if p.id = np.id then r.rem p.id - 1 else r.rem p.id) = 0) := by
    intro hfin p hp
    by_cases hpe : p.id = np.id
    · rw [if_pos hpe, hpe]
      exact iff_of_false hnp2.2 hfin
    · rw [if_neg hpe]
      exact hciff p hp
  have hcsub_pos : ∀ cid ∈ insertSet r.completed np.id,
      cid ∈ ps.map (·.id) := by
    intro cid hcid
    rcases mem_insertSet.mp hcid with h | rfl
    · exact hcsub cid h
    · exact List.mem_map_of_mem _ hnp_ps
  by_cases hsw : s.current = some np.id
  · -- no switch: the running process continues
    rw [srtfSwitch_eq hsw]
    obtain ⟨hlast_np, hseg_lt⟩ := hcur np.id hsw
    have hcomb : s.timeline ++ [⟨np.id, s.segStart, s.time + 1⟩] =
        rle (r.trace ++ [np.id]) := by
      rw [rle_append_last hlast_np np.id, if_pos rfl, ← hrle,
        srtfPending_some hsw, extendLast_append]
    by_cases hfin : r.rem np.id - 1 = 0
    · rw [srtfRun_complete (show s.rem np.id - 1 = 0 by rw [hrem]; exact hfin)]
      refine ⟨?_, ?_, ?_, htlen2, ?_, ?_, ?_, hcount2, ?_, ?_, ?_,
        fun _ => rfl⟩
      · show (fun x => if x = np.id then s.rem x - 1 else s.rem x) =
          fun x => if x = np.id then r.rem x - 1 else r.rem x
        rw [hrem]
      · show insertSet s.completed np.id =
          if r.rem np.id - 1 = 0 then insertSet r.completed np.id
          else r.completed
        rw [if_pos hfin, hcomp]
      · show s.time + 1 = r.time + 1
        rw [htime]
      · show (s.timeline ++ [⟨np.id, s.segStart, s.time + 1⟩]) ++ [] =
          rle (r.trace ++ [np.id])
        rw [List.append_nil]
        exact hcomb
      · intro c2 h
        exact Option.noConfusion h
      · intro _
        refine Or.inr ⟨np.id, htr_last, ?_⟩
        show np.id ∈ if r.rem np.id - 1 = 0 then insertSet r.completed np.id
          else r.completed
        rw [if_pos hfin]
        exact mem_insertSet.mpr (Or.inr rfl)
      · show ∀ p ∈ ps, p.id ∈ (if r.rem np.id - 1 = 0 then
          insertSet r.completed np.id else r.completed) ↔
          (if p.id = np.id then r.rem p.id - 1 else r.rem p.id) = 0
        rw [if_pos hfin]
        exact hciff_pos hfin
      · show ∀ cid ∈ (if r.rem np.id - 1 = 0 then insertSet r.completed np.id
          else r.completed), cid ∈ ps.map (·.id)
        rw [if_pos hfin]
        exact hcsub_pos
      · show (if r.rem np.id - 1 = 0 then insertSet r.completed np.id
          else r.completed).Nodup
        rw [if_pos hfin]
        exact nodup_insertSet hcnd np.id
    · rw [srtfRun_not_complete
        (show s.rem np.id - 1 ≠ 0 by rw [hrem]; exact hfin)]
      refine ⟨?_, ?_, ?_, htlen2, ?_, ?_, ?_, hcount2, ?_, ?_, ?_,
        ?_⟩
      · show (fun x => if x = np.id then s.rem x - 1 else s.rem x) =
          fun x => if x = np.id then r.rem x - 1 else r.rem x
        rw [hrem]
      · show s.completed =
          if r.rem np.id - 1 = 0 then insertSet r.completed np.id
          else r.completed
        rw [if_neg hfin, hcomp]
      · show s.time + 1 = r.time + 1
        rw [htime]
      · show s.timeline ++ srtfPending
          { s with
            rem := fun x => if x = np.id then s.rem x - 1 else s.rem x,
            time := s.time + 1 } = rle (r.trace ++ [np.id])
        have hpend : srtfPending
            { s with
              rem := fun x => if x = np.id then s.rem x - 1 else s.rem x,
              time := s.time + 1 } = [⟨np.id, s.segStart, s.time + 1⟩] := by
          show (match s.current with
            | none => ([] : List Segment)
            | some c => [⟨c, s.segStart, s.time + 1⟩]) = _
          rw [hsw]
        rw [hpend]
        exact hcomb
      · intro c2 h
        have h2 : s.current = some c2 := h
        rw [hsw] at h2
        have : np.id = c2 := Option.some_inj.mp h2
        subst this
        exact ⟨htr_last, by show s.segStart < s.time + 1; omega⟩
      · intro h
        have h2 : s.current = none := h
        rw [hsw] at h2
        exact Option.noConfusion h2
      · show ∀ p ∈ ps, p.id ∈ (if r.rem np.id - 1 = 0 then
          insertSet r.completed np.id else r.completed) ↔
          (if p.id = np.id then r.rem p.id - 1 else r.rem p.id) = 0
        rw [if_neg hfin]
        exact hciff_neg hfin
      · show ∀ cid ∈ (if r.rem np.id - 1 = 0 then insertSet r.completed np.id
          else r.completed), cid ∈ ps.map (·.id)
        rw [if_neg hfin]
        exact hcsub
      · show (if r.rem np.id - 1 = 0 then insertSet r.completed np.id
          else r.completed).Nodup
        rw [if_neg hfin]
        exact hcnd
      · intro hall
        exact absurd (fun p hp => hall p hp) hnotall
  · -- switch: close the previous segment and open one for np
    rw [srtfSwitch_ne hsw]
    have hcomb2 : (s.timeline ++ srtfPending s) ++
        [⟨np.id, s.time, s.time + 1⟩] = rle (r.trace ++ [np.id]) := by
      rcases hc0 : s.current with _ | c
      · rcases hnone hc0 with htr | ⟨lid, hlast, hlidc⟩
        · have hs0 : s.time = 0 := by
            rw [htime, ← htlen, htr]
            rfl
          have hboth : s.timeline ++ srtfPending s = [] := by
            rw [hrle, htr]
            rfl
          rw [hboth, htr, hs0]
          rfl
        · have hlid_ne : np.id ≠ lid := by
            intro h
            exact hnp2.2 (h ▸ hlidc)
          rw [rle_append_last hlast np.id, if_neg hlid_ne, ← hrle, htlen,
            ← htime]
      · have hlast := (hcur c hc0).1
        have hne2 : np.id ≠ c := by
          intro h
          exact hsw (by rw [hc0, h])
        rw [rle_append_last hlast np.id, if_neg hne2, ← hrle, htlen, ← htime]
    by_cases hfin : r.rem np.id - 1 = 0
    · rw [@srtfRun_complete
        { s with
          timeline := s.timeline ++ srtfPending s,
          current := some np.id, segStart := s.time } np
        (by show s.rem np.id - 1 = 0; rw [hrem]; exact hfin)]
      refine ⟨?_, ?_, ?_, htlen2, ?_, ?_, ?_, hcount2, ?_, ?_, ?_,
        fun _ => rfl⟩
      · show (fun x => if x = np.id then s.rem x - 1 else s.rem x) =
          fun x => if x = np.id then r.rem x - 1 else r.rem x
        rw [hrem]
      · show insertSet s.completed np.id =
          if r.rem np.id - 1 = 0 then insertSet r.completed np.id
          else r.completed
        rw [if_pos hfin, hcomp]
      · show s.time + 1 = r.time + 1
        rw [htime]
      · show ((s.timeline ++ srtfPending s) ++
          [⟨np.id, s.time, s.time + 1⟩]) ++ [] = rle (r.trace ++ [np.id])
        rw [List.append_nil]
        exact hcomb2
      · intro c2 h
        exact Option.noConfusion h
      · intro _
        refine Or.inr ⟨np.id, htr_last, ?_⟩
        show np.id ∈ if r.rem np.id - 1 = 0 then insertSet r.completed np.id
          else r.completed
        rw [if_pos hfin]
        exact mem_insertSet.mpr (Or.inr rfl)
      · show ∀ p ∈ ps, p.id ∈ (if r.rem np.id - 1 = 0 then
          insertSet r.completed np.id else r.completed) ↔
          (if p.id = np.id then r.rem p.id - 1 else r.rem p.id) = 0
        rw [if_pos hfin]
        exact hciff_pos hfin
      · show ∀ cid ∈ (if r.rem np.id - 1 = 0 then insertSet r.completed np.id
          else r.completed), cid ∈ ps.map (·.id)
        rw [if_pos hfin]
        exact hcsub_pos
      · show (if r.rem np.id - 1 = 0 then insertSet r.completed np.id
          else r.completed).Nodup
        rw [if_pos hfin]
        exact nodup_insertSet hcnd np.id
    · rw [@srtfRun_not_complete
        { s with
          timeline := s.timeline ++ srtfPending s,
          current := some np.id, segStart := s.time } np
        (by show s.rem np.id - 1 ≠ 0; rw [hrem]; exact hfin)]
      refine ⟨?_, ?_, ?_, htlen2, ?_, ?_, ?_, hcount2, ?_, ?_, ?_,
        ?_⟩
      · show (fun x => if x = np.id then s.rem x - 1 else s.rem x) =
          fun x => if x = np.id then r.rem x - 1 else r.rem x
        rw [hrem]
      · show s.completed =
          if r.rem np.id - 1 = 0 then insertSet r.completed np.id
          else r.completed
        rw [if_neg hfin, hcomp]
      · show s.time + 1 = r.time + 1
        rw [htime]
      · show (s.timeline ++ srtfPending s) ++
          [⟨np.id, s.time, s.time + 1⟩] = rle (r.trace ++ [np.id])
        exact hcomb2
      · intro c2 h
        have h2 : (some np.id : Option String) = some c2 := h
        have : np.id = c2 := Option.some_inj.mp h2
        subst this
        exact ⟨htr_last, by show s.time < s.time + 1; omega⟩
      · intro h
        exact Option.noConfusion h
      · show ∀ p ∈ ps, p.id ∈ (if r.rem np.id - 1 = 0 then
          insertSet r.completed np.id else r.completed) ↔
          (if p.id = np.id then r.rem p.id - 1 else r.rem p.id) = 0
        rw [if_neg hfin]
        exact hciff_neg hfin
      · show ∀ cid ∈ (if r.rem np.id - 1 = 0 then insertSet r.completed np.id
          else r.completed), cid ∈ ps.map (·.id)
        rw [if_neg hfin]
        exact hcsub
      · show (if r.rem np.id - 1 = 0 then insertSet r.completed np.id
          else r.completed).Nodup
        rw [if_neg hfin]
        exact hcnd
      · intro hall
        exact absurd (fun p hp => hall p hp) hnotall

lemma srtfRel_init (ps : List Process) (hv : ValidInput ps) :
    SrtfRel ps ⟨dictBurst ps, 0, [], none, 0, []⟩ ⟨dictBurst ps, [], 0, []⟩ := by
  obtain ⟨hne, hids, hbpos, hnid⟩ := hv
  refine ⟨rfl, rfl, rfl, rfl, rfl, ?_, ?_, ?_, ?_, ?_, List.nodup_nil,
    fun _ => rfl⟩
  · intro c h
    exact Option.noConfusion h
  · intro _
    exact Or.inl rfl
  · intro p hp
    show ([] : List String).count p.id + dictBurst ps p.id = p.burst
    rw [dictBurst_lookup hids hp]
    simp
  · intro p hp
    constructor
    · intro h
      cases h
    · intro h
      have h2 : dictBurst ps p.id = 0 := h
      rw [dictBurst_lookup hids hp] at h2
      exact absurd h2 (by have := hbpos p hp; omega)
  · intro cid h
    cases h

lemma srtfSim {ps : List Process} (hv : ValidInput ps) :
    ∀ (fuel : Nat) (s : SrtfState) (r : SrtfRefState), SrtfRel ps s r →
      ∀ tl, srtfLoop ps.length (sortByArrival ps) fuel s = some tl →
        ∃ tr, srtfRefLoop ps.length (sortByArrival ps) fuel r = some tr ∧
          tl = rle tr ∧ ∀ p ∈ ps, tr.count p.id = p.burst := by
  intro fuel
  induction fuel with
  | zero => intro s r _ tl h; cases h
  | succ fuel ih =>
    intro s r hrel tl h
    rw [srtfLoop] at h
    rw [srtfRefLoop]
    have hcomp : s.completed = r.completed := hrel.2.1
    by_cases hlen : s.completed.length < ps.length
    · rw [if_pos hlen] at h
      have hlen2 : r.completed.length < ps.length := by
        rw [← hcomp]
        exact hlen
      rw [if_pos hlen2]
      rcases hA : (sortByArrival ps).filter
          (fun p => p.arrival ≤ r.time && p.id ∉ r.completed)
        with _ | ⟨hd, tl2⟩
      · exact ih _ _ (srtfRel_step_nil hv hrel hlen hA) tl h
      · exact ih _ _ (srtfRel_step_cons hv hrel hlen hA) tl h
    · rw [if_neg hlen] at h
      have hlen2 : ¬ r.completed.length < ps.length := by
        rw [← hcomp]
        exact hlen
      rw [if_neg hlen2]
      obtain ⟨hrem, _, htime, htlen, hrle, hcur, hnone, hcount, hciff, hcsub,
        hcnd, hterm⟩ := hrel
      have hall : ∀ p ∈ ps, p.id ∈ s.completed := by
        refine completed_all ?_ ?_ (Nat.le_of_not_lt hlen)
        · intro cid hcid
          exact hcsub cid (by rw [← hcomp]; exact hcid)
        · rw [hcomp]
          exact hcnd
      have hcurn : s.current = none := hterm hall
      have htl : s.timeline = tl := Option.some_inj.mp h
      refine ⟨r.trace, rfl, ?_, ?_⟩
      · rw [← htl, ← hrle, srtfPending_none hcurn, List.append_nil]
      · intro p hp
        have hpc : p.id ∈ r.completed := by
          rw [← hcomp]
          exact hall p hp
        have hrem0 : r.rem p.id = 0 := (hciff p hp).mp hpc
        have := hcount p hp
        omega

/-! ## Round-Robin lemmas -/

lemma sortByArrival_sorted_le (ps : List Process) :
    (sortByArrival ps).Pairwise (fun a b => a.arrival ≤ b.arrival) := by
  refine (sortByArrival_pairwise ps).imp ?_
  rintro a b (h | ⟨h, _⟩) <;> omega

lemma takeWhile_arrival_le {l : List Process} {t : Nat} :
    ∀ x ∈ l.takeWhile (fun p => p.arrival ≤ t), x.arrival ≤ t := by
  intro x hx
  simpa using List.mem_takeWhile_imp hx

lemma dropWhile_arrival_gt {l : List Process}
    (hl : l.Pairwise (fun a b => a.arrival ≤ b.arrival)) (t : Nat) :
    ∀ x ∈ l.dropWhile (fun p => p.arrival ≤ t), t < x.arrival := by
  induction l with
  | nil => simp
  | cons a rest ih =>
    rw [List.dropWhile_cons]
    by_cases h : a.arrival ≤ t
    · rw [if_pos (by simpa using h)]
      exact ih (List.pairwise_cons.mp hl).2
    · rw [if_neg (by simpa using h)]
      intro x hx
      rcases List.mem_cons.mp hx with rfl | hxr
      · omega
      · have := (List.pairwise_cons.mp hl).1 x hxr
        omega

lemma rrInv_init {ps : List Process} (hv : ValidInput ps) :
    RRInv ps (rrInit ps) := by
  obtain ⟨hne, hids, hbpos, hnid⟩ := hv
  have hperm := sortByArrival_perm ps
  have hsorted := sortByArrival_sorted_le ps
  have hmem : ∀ x ∈ sortByArrival ps, x ∈ ps := fun x hx => hperm.subset hx
  have hrem : ∀ x ∈ ps, 0 < dictBurst ps x.id := by
    intro x hx
    rw [dictBurst_lookup hids hx]
    exact hbpos x hx
  refine ⟨?_, ?_, ?_, ?_, ?_⟩
  · exact hsorted.sublist (List.dropWhile_sublist _)
  · intro x hx
    have hx2 : x ∈ sortByArrival ps := (List.dropWhile_sublist _).subset hx
    exact ⟨dropWhile_arrival_gt hsorted 0 x hx, hmem x hx2,
      hrem x (hmem x hx2)⟩
  · intro x hx
    have hx2 : x ∈ sortByArrival ps := (List.takeWhile_sublist _).subset hx
    exact ⟨takeWhile_arrival_le x hx, hmem x hx2, hrem x (hmem x hx2)⟩
  · intro p hp
    have hp2 : p ∈ sortByArrival ps := hperm.mem_iff.mpr hp
    rw [← List.takeWhile_append_dropWhile
      (fun x => decide (x.arrival ≤ 0)) (sortByArrival ps)] at hp2
    rcases List.mem_append.mp hp2 with h | h
    · exact Or.inl h
    · exact Or.inr (Or.inl h)
  · show ((sortByArrival ps).takeWhile (fun x => x.arrival ≤ 0) ++
      (sortByArrival ps).dropWhile (fun x => x.arrival ≤ 0)).Nodup
    rw [List.takeWhile_append_dropWhile]
    exact hperm.nodup_iff.mpr (List.Nodup.of_map _ hids)

lemma rrStep_busy {quantum : Nat} {s : RRState} {c : Process}
    {rest : List Process} (h : s.queue = c :: rest) :
    rrStep quantum s =
      { time := s.time + min quantum (s.rem c.id),
        queue := rest ++
          s.pending.takeWhile
            (fun x => x.arrival ≤ s.time + min quantum (s.rem c.id)) ++
          (if 0 < s.rem c.id - min quantum (s.rem c.id) then [c] else []),
        pending := s.pending.dropWhile
          (fun x => x.arrival ≤ s.time + min quantum (s.rem c.id)),
        rem := fun x =>
          if x = c.id then s.rem c.id - min quantum (s.rem c.id) else s.rem x,
        timeline := s.timeline ++
          [⟨c.id, s.time, s.time + min quantum (s.rem c.id)⟩] } := by
  unfold rrStep
  rw [h]

lemma rrStep_idle {quantum : Nat} {s : RRState} {p : Process}
    {pr : List Process} (hq : s.queue = []) (hp : s.pending = p :: pr) :
    rrStep quantum s =
      { time := p.arrival,
        queue := (p :: pr).takeWhile (fun x => x.arrival ≤ p.arrival),
        pending := (p :: pr).dropWhile (fun x => x.arrival ≤ p.arrival),
        rem := s.rem,
        timeline := s.timeline ++ [⟨"Idle", s.time, p.arrival⟩] } := by
  unfold rrStep
  rw [hq, hp]

lemma rrInv_step_idle {ps : List Process} {quantum : Nat} {s : RRState}
    (hinv : RRInv ps s) {p : Process} {pr : List Process}
    (hq : s.queue = []) (hp : s.pending = p :: pr) :
    RRInv ps (rrStep quantum s) := by
  obtain ⟨hpsort, hpend, hque, hcov, hnd⟩ := hinv
  rw [rrStep_idle hq hp]
  have hpsort2 : (p :: pr).Pairwise (fun a b => a.arrival ≤ b.arrival) :=
    hp ▸ hpsort
  have hpend2 : ∀ x ∈ p :: pr, s.time < x.arrival ∧ x ∈ ps ∧ 0 < s.rem x.id :=
    fun x hx => hpend x (hp ▸ hx)
  refine ⟨?_, ?_, ?_, ?_, ?_⟩
  · exact hpsort2.sublist (List.dropWhile_sublist _)
  · intro x hx
    have hx0 : x ∈ (p :: pr).dropWhile (fun x => x.arrival ≤ p.arrival) := hx
    have hx2 : x ∈ p :: pr := (List.dropWhile_sublist _).subset hx0
    exact ⟨dropWhile_arrival_gt hpsort2 p.arrival x hx0, (hpend2 x hx2).2⟩
  · intro x hx
    have hx0 : x ∈ (p :: pr).takeWhile (fun x => x.arrival ≤ p.arrival) := hx
    have hx2 : x ∈ p :: pr := (List.takeWhile_sublist _).subset hx0
    exact ⟨takeWhile_arrival_le x hx0, (hpend2 x hx2).2⟩
  · intro q hq2
    rcases hcov q hq2 with h | h | h
    · rw [hq] at h
      cases h
    · rw [hp] at h
      rw [← List.takeWhile_append_dropWhile
        (fun x => decide (x.arrival ≤ p.arrival)) (p :: pr)] at h
      rcases List.mem_append.mp h with h2 | h2
      · exact Or.inl h2
      · exact Or.inr (Or.inl h2)
    · exact Or.inr (Or.inr h)
  · show ((p :: pr).takeWhile (fun x => x.arrival ≤ p.arrival) ++
      (p :: pr).dropWhile (fun x => x.arrival ≤ p.arrival)).Nodup
    rw [List.takeWhile_append_dropWhile, ← hp]
    have := hnd
    rw [hq] at this
    exact this

lemma rrInv_step_busy {ps : List Process} {quantum : Nat} (hv : ValidInput ps)
    {s : RRState} (hinv : RRInv ps s) {c : Process} {rest : List Process}
    (h : s.queue = c :: rest) : RRInv ps (rrStep quantum s) := by
  obtain ⟨hne, hids, hbpos, hnid⟩ := hv
  obtain ⟨hpsort, hpend, hque, hcov, hnd⟩ := hinv
  rw [rrStep_busy h]
  have hcq : c ∈ s.queue := by rw [h]; exact List.mem_cons_self _ _
  obtain ⟨hc_arr, hc_ps, hc_rem⟩ := hque c hcq
  have hnd2 : ((c :: rest) ++ s.pending).Nodup := h ▸ hnd
  have hc_rest : c ∉ rest := by
    have := (List.nodup_append.mp hnd2).1
    exact (List.nodup_cons.mp this).1
  have hc_pend : c ∉ s.pending := by
    have := (List.nodup_append.mp hnd2).2.2
    exact fun hcp => this (List.mem_cons_self _ _) hcp
  have hne_id : ∀ x, x ∈ ps → x ≠ c → x.id ≠ c.id :=
    fun x hx hxc h2 => hxc (id_inj hids hx hc_ps h2)
  have hrem_other : ∀ x, x ∈ ps → x ≠ c →
      (if x.id = c.id then s.rem c.id - min quantum (s.rem c.id)
        else s.rem x.id) = s.rem x.id :=
    fun x hx hxc => if_neg (hne_id x hx hxc)
  have hrest_facts : ∀ x ∈ rest, x.arrival ≤ s.time ∧ x ∈ ps ∧ 0 < s.rem x.id :=
    fun x hx => hque x (by rw [h]; exact List.mem_cons_of_mem _ hx)
  have hrest_ne : ∀ x ∈ rest, x ≠ c := by
    intro x hx hxc
    exact hc_rest (hxc ▸ hx)
  have hpend_ne : ∀ x ∈ s.pending, x ≠ c := by
    intro x hx hxc
    exact hc_pend (hxc ▸ hx)
  refine ⟨?_, ?_, ?_, ?_, ?_⟩
  · exact hpsort.sublist (List.dropWhile_sublist _)
  · intro x hx
    have hx0 : x ∈ s.pending.dropWhile
        (fun x => x.arrival ≤ s.time + min quantum (s.rem c.id)) := hx
    have hx2 : x ∈ s.pending := (List.dropWhile_sublist _).subset hx0
    obtain ⟨_, hxps, hxrem⟩ := hpend x hx2
    refine ⟨dropWhile_arrival_gt hpsort _ x hx0, hxps, ?_⟩
    show 0 < if x.id = c.id then _ else s.rem x.id
    rw [hrem_other x hxps (hpend_ne x hx2)]
    exact hxrem
  · intro x hx
    have hx0 : x ∈ rest ++
        s.pending.takeWhile
          (fun x => x.arrival ≤ s.time + min quantum (s.rem c.id)) ++
        (if 0 < s.rem c.id - min quantum (s.rem c.id) then [c] else []) := hx
    rcases List.mem_append.mp hx0 with hx1 | hx1
    · rcases List.mem_append.mp hx1 with hx2 | hx2
      · obtain ⟨hxa, hxps, hxrem⟩ := hrest_facts x hx2
        refine ⟨le_trans hxa (Nat.le_add_right _ _), hxps, ?_⟩
        show 0 < if x.id = c.id then _ else s.rem x.id
        rw [hrem_other x hxps (hrest_ne x hx2)]
        exact hxrem
      · have hx3 : x ∈ s.pending := (List.takeWhile_sublist _).subset hx2
        obtain ⟨_, hxps, hxrem⟩ := hpend x hx3
        refine ⟨takeWhile_arrival_le x hx2, hxps, ?_⟩
        show 0 < if x.id = c.id then _ else s.rem x.id
        rw [hrem_other x hxps (hpend_ne x hx3)]
        exact hxrem
    · by_cases hb : 0 < s.rem c.id - min quantum (s.rem c.id)
      · rw [if_pos hb] at hx1
        rcases List.mem_singleton.mp hx1 with rfl
        refine ⟨le_trans hc_arr (Nat.le_add_right _ _), hc_ps, ?_⟩
        show 0 < if x.id = x.id then s.rem x.id - min quantum (s.rem x.id)
          else s.rem x.id
        rw [if_pos rfl]
        exact hb
      · rw [if_neg hb] at hx1
        cases hx1
  · intro p hp
    rcases hcov p hp with hm | hm | hm
    · rw [h] at hm
      rcases List.mem_cons.mp hm with rfl | hm2
      · by_cases hb : 0 < s.rem p.id - min quantum (s.rem p.id)
        · refine Or.inl ?_
          show p ∈ rest ++ _ ++ _
          refine List.mem_append.mpr (Or.inr ?_)
          rw [if_pos hb]
          exact List.mem_singleton.mpr rfl
        · refine Or.inr (Or.inr ?_)
          show (if p.id = p.id then s.rem p.id - min quantum (s.rem p.id)
            else s.rem p.id) = 0
          rw [if_pos rfl]
          omega
      · exact Or.inl (List.mem_append.mpr
          (Or.inl (List.mem_append.mpr (Or.inl hm2))))
    · rw [← List.takeWhile_append_dropWhile
        (fun x => decide (x.arrival ≤ s.time + min quantum (s.rem c.id)))
        s.pending] at hm
      rcases List.mem_append.mp hm with hm2 | hm2
      · exact Or.inl (List.mem_append.mpr
          (Or.inl (List.mem_append.mpr (Or.inr hm2))))
      · exact Or.inr (Or.inl hm2)
    · have hpc : p ≠ c := by
        intro hpc
        rw [hpc] at hm
        omega
      refine Or.inr (Or.inr ?_)
      show (if p.id = c.id then _ else s.rem p.id) = 0
      rw [hrem_other p hp hpc]
      exact hm
  · rw [← List.takeWhile_append_dropWhile
      (fun x => decide (x.arrival ≤ s.time + min quantum (s.rem c.id)))
      s.pending] at hnd2
    set newly := s.pending.takeWhile
      (fun x => x.arrival ≤ s.time + min quantum (s.rem c.id)) with hnewly
    set pend2 := s.pending.dropWhile
      (fun x => x.arrival ≤ s.time + min quantum (s.rem c.id)) with hpend2
    have hnd3 : (c :: ((rest ++ newly) ++ pend2)).Nodup := by
      have heq : (c :: rest) ++ (newly ++ pend2) =
          c :: ((rest ++ newly) ++ pend2) := by
        simp [List.append_assoc]
      rw [heq] at hnd2
      exact hnd2
    by_cases hb : 0 < s.rem c.id - min quantum (s.rem c.id)
    · show ((rest ++ newly ++ (if 0 < s.rem c.id - min quantum (s.rem c.id)
        then [c] else [])) ++ pend2).Nodup
      rw [if_pos hb]
      refine (List.Perm.nodup_iff ?_).mpr hnd3
      refine List.perm_iff_count.mpr ?_
      intro a
      simp only [List.count_append, List.count_cons, List.count_nil]
      omega
    · show ((rest ++ newly ++ (if 0 < s.rem c.id - min quantum (s.rem c.id)
        then [c] else [])) ++ pend2).Nodup
      rw [if_neg hb]
      have heq2 : (rest ++ newly ++ ([] : List Process)) ++ pend2 =
          (rest ++ newly) ++ pend2 := by
        simp
      rw [heq2]
      exact (List.sublist_cons_self c _).nodup hnd3

lemma rrStep_dispatch_facts {ps : List Process} {quantum : Nat}
    {s : RRState} (hinv : RRInv ps s) {c : Process} {rest : List Process}
    (h : s.queue = c :: rest) :
    (∀ p ∈ ps, p.arrival ≤ s.time → p ∈ s.queue ∨ s.rem p.id = 0) ∧
    (rrStep quantum s).timeline =
      s.timeline ++ [⟨c.id, s.time, s.time + min quantum (s.rem c.id)⟩] ∧
    ∃ newly, (rrStep quantum s).queue = rest ++ newly ++
        (if 0 < s.rem c.id - min quantum (s.rem c.id) then [c] else []) ∧
      newly.Pairwise (fun a b => a.arrival ≤ b.arrival) ∧
      ∀ x ∈ newly, s.time < x.arrival ∧
        x.arrival ≤ s.time + min quantum (s.rem c.id) := by
  obtain ⟨hpsort, hpend, hque, hcov, hnd⟩ := hinv
  refine ⟨?_, by rw [rrStep_busy h], ?_⟩
  · intro p hp harr
    rcases hcov p hp with hm | hm | hm
    · exact Or.inl hm
    · have := (hpend p hm).1
      omega
    · exact Or.inr hm
  · refine ⟨s.pending.takeWhile
      (fun x => x.arrival ≤ s.time + min quantum (s.rem c.id)), ?_, ?_, ?_⟩
    · rw [rrStep_busy h]
    · exact hpsort.sublist (List.takeWhile_sublist _)
    · intro x hx
      have hx2 : x ∈ s.pending := (List.takeWhile_sublist _).subset hx
      exact ⟨(hpend x hx2).1, takeWhile_arrival_le x hx⟩

lemma rrReach_inv {ps : List Process} {quantum : Nat} (hv : ValidInput ps) :
    ∀ {s : RRState}, RRReach ps quantum s → RRInv ps s := by
  intro s hr
  induction hr with
  | init => exact rrInv_init hv
  | step s2 _ hne ih =>
    rcases hq : s2.queue with _ | ⟨c, rest⟩
    · rcases hp : s2.pending with _ | ⟨p, pr⟩
      · rcases hne with h | h
        · exact absurd hq h
        · exact absurd hp h
      · exact rrInv_step_idle ih hq hp
    · exact rrInv_step_busy hv ih hq

lemma sjfReach_inv {ps : List Process} (hv : ValidInput ps) :
    ∀ {s : SjfState}, SjfReach ps s → SjfInv ps s := by
  intro s hr
  induction hr with
  | init => exact sjfInv_init ps
  | step s2 _ hlen ih =>
    rcases hsrq : List.insertionSort (fun a b => a.burst ≤ b.burst)
        (sjfAdmit (sortByArrival ps) s2) with _ | ⟨c, rest⟩
    · have hadm : sjfAdmit (sortByArrival ps) s2 = [] := by
        have hp := List.perm_insertionSort
          (fun a b : Process => a.burst ≤ b.burst)
          (sjfAdmit (sortByArrival ps) s2)
        rw [hsrq] at hp
        exact hp.symm.eq_nil
      exact sjfInv_step_idle hv ih hlen hadm
    · exact sjfInv_step_busy hv ih hsrq

lemma minByRem_min (rem : String → Nat) (hd : Process) (tl : List Process) :
    ∀ x ∈ hd :: tl, rem (minByRem rem hd tl).id ≤ rem x.id := by
  unfold minByRem
  induction tl generalizing hd with
  | nil =>
    intro x hx
    rcases List.mem_cons.mp hx with rfl | hx2
    · exact Nat.le_refl _
    · cases hx2
  | cons q rest ih =>
    intro x hx
    rw [List.foldl_cons]
    by_cases h : rem q.id < rem hd.id
    · rw [if_pos h]
      rcases List.mem_cons.mp hx with rfl | hx2
      · exact le_trans (ih q q (List.mem_cons_self _ _)) (le_of_lt h)
      · rcases List.mem_cons.mp hx2 with rfl | hx3
        · exact ih x x (List.mem_cons_self _ _)
        · exact ih q x (List.mem_cons_of_mem _ hx3)
    · rw [if_neg h]
      rcases List.mem_cons.mp hx with rfl | hx2
      · exact ih x x (List.mem_cons_self _ _)
      · rcases List.mem_cons.mp hx2 with rfl | hx3
        · exact le_trans (ih hd hd (List.mem_cons_self _ _))
            (Nat.le_of_not_lt h)
        · exact ih hd x (List.mem_cons_of_mem _ hx3)

/-! ## Multi-processor Round-Robin lemmas -/

lemma foldlM_eq_mrrRound (quantum t : Nat) :
    ∀ (idxs : List Nat) (g : MRRState),
      idxs.foldlM (fun acc i => mrrProcStep quantum t acc i) g =
        mrrRound quantum t idxs g := by
  intro idxs
  induction idxs with
  | nil => intro g; rfl
  | cons i rest ih =>
    intro g
    rw [List.foldlM_cons, mrrRound]
    cases h : mrrProcStep quantum t g i with
    | none => rfl
    | some g2 =>
      show List.foldlM (fun acc i => mrrProcStep quantum t acc i) g2 rest =
        mrrRound quantum t rest g2
      exact ih g2

lemma mrrUpdate_queue (t : Nat) (g : MRRState) (i : Nat) :
    ∃ app, app.length ≤ 1 ∧ (mrrUpdate t g i).1.queue = g.queue ++ app := by
  unfold mrrUpdate
  dsimp only
  split
  all_goals try split
  all_goals try split
  all_goals try split
  all_goals try split
  all_goals first
  | ((refine ⟨[], ?_, ?_⟩ <;> simp); done)
  | (refine ⟨_, ?_, rfl⟩; simp)

lemma mrrDispatch_queue {quantum t : Nat} {g : MRRState} {p1 : MProcUnit}
    {i : Nat} {g2 : MRRState} (h : mrrDispatch quantum t g p1 i = some g2) :
    g2.queue = g.queue ∨ g2.queue = g.queue.drop 1 := by
  unfold mrrDispatch at h
  dsimp only at h
  split at h
  · split at h
    · rename_i pid qrest hq
      split at h
      · injection h with h2
        subst h2
        exact Or.inr (by simp [hq])
      · injection h with h2
        subst h2
        exact Or.inr (by simp [hq])
    · split at h
      all_goals try split at h
      all_goals try split at h
      all_goals try split at h
      all_goals first
      | (injection h with h2; subst h2; exact Or.inl rfl)
      | injection h
  · injection h with h2
    subst h2
    exact Or.inl rfl

lemma mrrProcStep_queue {quantum t : Nat} {g : MRRState} {i : Nat}
    {g2 : MRRState} (h : mrrProcStep quantum t g i = some g2) :
    ∃ app d, app.length ≤ 1 ∧ d ≤ 1 ∧
      g2.queue = (g.queue ++ app).drop d := by
  unfold mrrProcStep at h
  obtain ⟨app, hlen, hq⟩ := mrrUpdate_queue t g i
  rcases hu : mrrUpdate t g i with ⟨g1, p1⟩
  rw [hu] at h hq
  rcases mrrDispatch_queue h with h2 | h2
  · exact ⟨app, 0, hlen, by omega, by rw [h2, List.drop_zero]; exact hq⟩
  · refine ⟨app, 1, hlen, Nat.le_refl 1, ?_⟩
    rw [h2, hq]

lemma mrrUnit_eq_round (ps : List Process) (quantum nproc : Nat)
    (g : MRRState) :
    mrrUnit ps quantum nproc g =
      (mrrRound quantum g.time (List.range nproc)
        { g with queue := g.queue ++
            (ps.filter (fun p => p.arrival = g.time)).map (·.id) }).map
        (fun g2 => { g2 with time := g2.time + 1 }) := by
  unfold mrrUnit
  dsimp only
  rw [foldlM_eq_mrrRound]

/-! ## The claims -/

/-- C1: refuted by the multi-processor scheduler of question6.py: on the
valid input of the single process P1 (arrival 0, burst 5) with quantum 2 and
one processor, the emitted segments for P1 are [0,3), [2,5), [4,6), whose
durations sum to 8, not to the burst 5 — the script opens each segment at
the dispatch time but only starts consuming the burst on the next unit, so
every segment is one unit too long.  (The single-processor schedulers do
satisfy the property; the claim quantifies over every scheduler and fails on
this one.) -/
theorem mrr_duration_sum_bug :
    ValidInput [⟨"P1", 0, 5⟩] ∧
    mrr_schedule 20 [⟨"P1", 0, 5⟩] 2 1 =
      some [⟨"P1", 0, 3, 1⟩, ⟨"P1", 2, 5, 1⟩, ⟨"P1", 4, 6, 1⟩] ∧
    sumDurM [⟨"P1", 0, 3, 1⟩, ⟨"P1", 2, 5, 1⟩, ⟨"P1", 4, 6, 1⟩] "P1" = 8 :=
  ⟨by decide, by rfl, by rfl⟩

/-- C2: refuted by the multi-processor scheduler of question6.py: on the
valid input P1, P2 (both arrival 0, burst 5) with quantum 2 and two
processors, processor 1 is attributed the segments [0,3), [2,5), [4,6),
which overlap pairwise — [2,5) starts before [0,3) ends — so the
per-processor segments are neither non-overlapping nor gapless.  (The
single-processor schedulers do satisfy the property; the claim quantifies
over every scheduler and fails on this one.) -/
theorem mrr_overlap_bug :
    ValidInput [⟨"P1", 0, 5⟩, ⟨"P2", 0, 5⟩] ∧
    mrr_schedule 40 [⟨"P1", 0, 5⟩, ⟨"P2", 0, 5⟩] 2 2 =
      some [⟨"P1", 0, 3, 1⟩, ⟨"P2", 0, 3, 2⟩, ⟨"P1", 2, 5, 1⟩,
        ⟨"P2", 2, 5, 2⟩, ⟨"P1", 4, 6, 1⟩, ⟨"P2", 4, 6, 2⟩] ∧
    ([⟨"P1", 0, 3, 1⟩, ⟨"P2", 0, 3, 2⟩, ⟨"P1", 2, 5, 1⟩, ⟨"P2", 2, 5, 2⟩,
        ⟨"P1", 4, 6, 1⟩, (⟨"P2", 4, 6, 2⟩ : MEvent)].filter
      (fun e => e.procLabel = 1)) =
      [⟨"P1", 0, 3, 1⟩, ⟨"P1", 2, 5, 1⟩, ⟨"P1", 4, 6, 1⟩] ∧
    ¬ List.Chain' (fun a b => a.stop ≤ b.start)
      [⟨"P1", 0, 3, 1⟩, ⟨"P1", 2, 5, 1⟩, (⟨"P1", 4, 6, 1⟩ : MEvent)] :=
  ⟨by decide, by rfl, by rfl, by
    intro hch
    have h1 : (3 : Nat) ≤ 2 := (List.chain'_cons.mp hch).1
    omega⟩

/-- C3: the SRTF scheduler of question3.py realizes the per-unit
minimum-remaining policy: minByRem, the selection the reference stepper
makes each unit among the arrived, incomplete processes, attains the
minimal remaining time (first conjunct); and whenever the source scheduler
returns a timeline, the reference per-unit trace exists and the timeline is
exactly its run-length encoding, with every input process owning exactly
burst trace units — so a preempted process resumes in later segments and
its segment durations sum to its burst. -/
theorem srtf_min_remaining (ps : List Process) (fuel : Nat)
    (tl : List Segment) (hv : ValidInput ps)
    (h : sjf_preemptive_schedule fuel ps = some tl) :
    (∀ (rem : String → Nat) (hd : Process) (rest : List Process),
      ∀ x ∈ hd :: rest, rem (minByRem rem hd rest).id ≤ rem x.id) ∧
    ∃ tr, srtf_ref fuel ps = some tr ∧ tl = rle tr ∧
      ∀ p ∈ ps, tr.count p.id = p.burst := by
  refine ⟨fun rem hd rest => minByRem_min rem hd rest, ?_⟩
  have h2 : srtfLoop ps.length (sortByArrival ps) fuel
      ⟨dictBurst ps, 0, [], none, 0, []⟩ = some tl := h
  obtain ⟨tr, ha, hb, hc⟩ :=
    srtfSim hv fuel _ _ (srtfRel_init ps hv) tl h2
  exact ⟨tr, ha, hb, hc⟩

/-- C3 witness: the theorem applied to the example input of the repository,
with the timeline question3.py computes for it. -/
theorem srtf_min_remaining_witness :
    ∃ tr, srtf_ref 60 exInput = some tr ∧
      [⟨"P1", 0, 3⟩, ⟨"P2", 3, 4⟩, ⟨"P1", 4, 6⟩, ⟨"Idle", 6, 10⟩,
        ⟨"P3", 10, 12⟩, ⟨"P4", 12, 17⟩, ⟨"P3", 17, 26⟩,
        (⟨"P5", 26, 38⟩ : Segment)] = rle tr ∧
      ∀ p ∈ exInput, tr.count p.id = p.burst :=
  (srtf_min_remaining exInput 60
    [⟨"P1", 0, 3⟩, ⟨"P2", 3, 4⟩, ⟨"P1", 4, 6⟩, ⟨"Idle", 6, 10⟩,
      ⟨"P3", 10, 12⟩, ⟨"P4", 12, 17⟩, ⟨"P3", 17, 26⟩, ⟨"P5", 26, 38⟩]
    (by decide) (by rfl)).2

/-- C4: at every decision point of the question2.py non-preemptive SJF loop
— every reachable state whose burst-sorted ready queue is non-empty — the
head c of that sorted queue is a ready process of minimum burst, ties broken
by earliest arrival and then by original input order (SjfBefore), and the
step runs c to completion at once, emitting the single contiguous segment
[time, time + burst); consequently any returned timeline carries exactly one
segment, of length exactly burst, for every input process. -/
theorem sjf_np_min_burst (ps : List Process) (hv : ValidInput ps) :
    (∀ s, SjfReach ps s →
      ∀ c rest, List.insertionSort (fun a b => a.burst ≤ b.burst)
          (sjfAdmit (sortByArrival ps) s) = c :: rest →
        c ∈ sjfAdmit (sortByArrival ps) s ∧
        (∀ q ∈ sjfAdmit (sortByArrival ps) s, SjfBefore ps c q) ∧
        sjfStep (sortByArrival ps) s =
          { time := s.time + c.burst, ready := rest,
            completed := insertSet s.completed c.id,
            timeline := s.timeline ++ [⟨c.id, s.time, s.time + c.burst⟩] }) ∧
    ∀ fuel tl, sjf_non_preemptive_schedule fuel ps = some tl →
      ∀ p ∈ ps, ∃ st,
        tl.filter (fun sg => sg.id = p.id) = [⟨p.id, st, st + p.burst⟩] := by
  constructor
  · intro s hs c rest hsrq
    obtain ⟨hbef, hmem, _, _⟩ := sjf_decision hv (sjfReach_inv hv hs) hsrq
    exact ⟨hmem, hbef, sjfStep_busy hsrq⟩
  · intro fuel tl h p hp
    have h2 : sjfLoop ps.length (sortByArrival ps) fuel sjfInit = some tl := h
    exact (sjfLoop_facts hv fuel sjfInit (sjfInv_init ps) tl h2).1 p hp

/-- C4 witness: the theorem applied to the example input of the repository;
P3 (burst 11) gets exactly one segment of length 11 in the timeline
question2.py computes. -/
theorem sjf_np_min_burst_witness :
    ∃ st, [⟨"P1", 0, 5⟩, ⟨"P2", 5, 6⟩, ⟨"Idle", 6, 10⟩, ⟨"P3", 10, 21⟩,
        ⟨"P4", 21, 26⟩, (⟨"P5", 26, 38⟩ : Segment)].filter
        (fun sg => sg.id = "P3") = [⟨"P3", st, st + 11⟩] :=
  (sjf_np_min_burst exInput (by decide)).2 20
    [⟨"P1", 0, 5⟩, ⟨"P2", 5, 6⟩, ⟨"Idle", 6, 10⟩, ⟨"P3", 10, 21⟩,
      ⟨"P4", 21, 26⟩, ⟨"P5", 26, 38⟩] (by rfl) ⟨"P3", 10, 11⟩ (by decide)

/-- C5: queue discipline of the question4.py Round-Robin: in every reachable
state about to dispatch (queue = c :: rest), every arrived input process is
in the queue or out of work; the dispatched head c runs for exactly
min(quantum, remaining) units, emitted as one segment; and the successor
queue is rest ++ newly ++ (the re-queued c, only when work remains), where
newly are exactly processes that arrived during the slice, admitted in
arrival order — so the preempted process is re-queued behind them and never
cuts in front of arrivals of its slice. -/
theorem rr_queue_discipline (ps : List Process) (quantum : Nat) (s : RRState)
    (hv : ValidInput ps) (hr : RRReach ps quantum s) (c : Process)
    (rest : List Process) (h : s.queue = c :: rest) :
    (∀ p ∈ ps, p.arrival ≤ s.time → p ∈ s.queue ∨ s.rem p.id = 0) ∧
    (rrStep quantum s).timeline =
      s.timeline ++ [⟨c.id, s.time, s.time + min quantum (s.rem c.id)⟩] ∧
    ∃ newly, (rrStep quantum s).queue = rest ++ newly ++
        (if 0 < s.rem c.id - min quantum (s.rem c.id) then [c] else []) ∧
      newly.Pairwise (fun a b => a.arrival ≤ b.arrival) ∧
      ∀ x ∈ newly, s.time < x.arrival ∧
        x.arrival ≤ s.time + min quantum (s.rem c.id) :=
  rrStep_dispatch_facts (rrReach_inv hv hr) h

/-- C5 witness: the theorem applied to the initial state of the example
input of the repository, whose queue holds exactly P1. -/
theorem rr_queue_discipline_witness :
    (rrInit exInput).queue = [⟨"P1", 0, 5⟩] ∧
    (rrStep 2 (rrInit exInput)).timeline =
      (rrInit exInput).timeline ++
        [⟨Process.id ⟨"P1", 0, 5⟩, (rrInit exInput).time,
          (rrInit exInput).time +
            min 2 ((rrInit exInput).rem (Process.id ⟨"P1", 0, 5⟩))⟩] :=
  ⟨by decide, (rr_queue_discipline exInput 2 (rrInit exInput) (by decide)
    RRReach.init ⟨"P1", 0, 5⟩ [] (by decide)).2.1⟩

/-- C6 counterexample: on the valid input P1 (arrival 0, burst 2), P2
(arrival 0, burst 3) with quantum 2 and two processors, the question6.py
loop and the two-phase semantics worded by the claim (all processor updates
first, then all dispatches, by ascending index) return different event
lists: they disagree on which processor runs P2 last. -/
theorem mrr_twophase_cex :
    mrr_schedule 20 [⟨"P1", 0, 2⟩, ⟨"P2", 0, 3⟩] 2 2 =
      some [⟨"P1", 0, 3, 1⟩, ⟨"P2", 0, 3, 2⟩, ⟨"P2", 2, 4, 2⟩] ∧
    mrr_twophase 20 [⟨"P1", 0, 2⟩, ⟨"P2", 0, 3⟩] 2 2 =
      some [⟨"P1", 0, 3, 1⟩, ⟨"P2", 0, 3, 2⟩, ⟨"P2", 2, 4, 1⟩] ∧
    (⟨"P2", 2, 4, 2⟩ : MEvent) ≠ ⟨"P2", 2, 4, 1⟩ :=
  ⟨by rfl, by rfl, by decide⟩

/-- C6 (amended): within each time unit the question6.py loop does handle
processors strictly in ascending index order, but one processor at a time:
each processor performs its own state update immediately followed by its own
dispatch before the next processor is touched (mrrRound), rather than all
updates completing before any dispatch; and one processor turn removes at
most one process from the front of the shared queue (while appending at most
one quantum-expired process at its back). -/
theorem mrr_one_pass (ps : List Process) (quantum nproc : Nat)
    (g : MRRState) :
    mrrUnit ps quantum nproc g =
      (mrrRound quantum g.time (List.range nproc)
        { g with queue := g.queue ++
            (ps.filter (fun p => p.arrival = g.time)).map (·.id) }).map
        (fun g2 => { g2 with time := g2.time + 1 }) ∧
    ∀ (t i : Nat) (g1 g2 : MRRState), mrrProcStep quantum t g1 i = some g2 →
      ∃ app d, app.length ≤ 1 ∧ d ≤ 1 ∧
        g2.queue = (g1.queue ++ app).drop d :=
  ⟨mrrUnit_eq_round ps quantum nproc g,
    fun _ _ _ _ h => mrrProcStep_queue h⟩

/-- C7: fcfs_schedule of question1.py on the example input of the
specification returns exactly the timeline P1[0,5), P2[5,6), Idle[6,10),
P3[10,21), P4[21,23), P5[23,35), in that order. -/
theorem fcfs_example_timeline :
    fcfs_schedule
        [⟨"P1", 0, 5⟩, ⟨"P2", 3, 1⟩, ⟨"P3", 10, 11⟩, ⟨"P4", 12, 2⟩,
          ⟨"P5", 15, 12⟩] =
      [⟨"P1", 0, 5⟩, ⟨"P2", 5, 6⟩, ⟨"Idle", 6, 10⟩, ⟨"P3", 10, 21⟩,
        ⟨"P4", 21, 23⟩, ⟨"P5", 23, 35⟩] := by rfl

/-- C8 counterexample: the Round-Robin scheduler of question4.py does not
coalesce consecutive same-owner segments: on the valid input P1 (arrival 0,
burst 5) with quantum 2 it returns P1[0,2), P1[2,4), P1[4,5) — adjacent
segments with one owner, where the claim demands one merged segment. -/
theorem rr_coalesce_cex :
    round_robin_schedule 10 [⟨"P1", 0, 5⟩] 2 =
      some [⟨"P1", 0, 2⟩, ⟨"P1", 2, 4⟩, ⟨"P1", 4, 5⟩] ∧
    ¬ List.Chain' (fun a b => a.id ≠ b.id)
      [⟨"P1", 0, 2⟩, ⟨"P1", 2, 4⟩, (⟨"P1", 4, 5⟩ : Segment)] :=
  ⟨by rfl, fun hch => (List.chain'_cons.mp hch).1 rfl⟩

/-- C8 (amended): the FCFS, non-preemptive SJF and preemptive SRTF
schedulers of questions 1 to 3 do coalesce: on any valid input, no two
adjacent segments of a timeline they return carry the same owner.
(Round-Robin, by the counterexample, does not.) -/
theorem coalesced_timelines (ps : List Process) (hv : ValidInput ps) :
    List.Chain' (fun a b => a.id ≠ b.id) (fcfs_schedule ps) ∧
    (∀ fuel tl, sjf_non_preemptive_schedule fuel ps = some tl →
      List.Chain' (fun a b => a.id ≠ b.id) tl) ∧
    (∀ fuel tl, sjf_preemptive_schedule fuel ps = some tl →
      List.Chain' (fun a b => a.id ≠ b.id) tl) := by
  refine ⟨?_, ?_, ?_⟩
  · have hperm := sortByArrival_perm ps
    exact fcfsGo_chain (sortByArrival ps) 0
      ((hperm.map (·.id)).nodup_iff.mpr hv.2.1)
      (fun q hq => hv.2.2.2 q (hperm.subset hq))
  · intro fuel tl h
    have h2 : sjfLoop ps.length (sortByArrival ps) fuel sjfInit = some tl := h
    exact (sjfLoop_facts hv fuel sjfInit (sjfInv_init ps) tl h2).2
  · intro fuel tl h
    have h2 : srtfLoop ps.length (sortByArrival ps) fuel
        ⟨dictBurst ps, 0, [], none, 0, []⟩ = some tl := h
    obtain ⟨tr, _, hb, _⟩ :=
      srtfSim hv fuel _ _ (srtfRel_init ps hv) tl h2
    rw [hb]
    exact chain_rle tr

/-- C8 witness: the amended theorem applied to the example input of the
repository: the FCFS timeline it computes has no adjacent same-owner
segments. -/
theorem coalesced_timelines_witness :
    List.Chain' (fun a b => a.id ≠ b.id) (fcfs_schedule exInput) :=
  (coalesced_timelines exInput (by decide)).1

/-- C9 counterexample: the schedulers perform no input validation: on the
invalid input P1 with burst 0, fcfs_schedule reports nothing and returns the
zero-length segment P1[0,0) instead of an InvalidInput error before
simulation. -/
theorem fcfs_invalid_cex :
    ¬ ValidInput [⟨"P1", 0, 0⟩] ∧
    fcfs_schedule [⟨"P1", 0, 0⟩] = [⟨"P1", 0, 0⟩] :=
  ⟨by decide, by rfl⟩

/-- C9 (amended): the sources contain no input validation at all: every
scheduler is a total simulation that also accepts invalid inputs — the empty
process list yields an empty timeline from every scheduler, and a
non-positive burst yields an ordinary zero-length segment — no InvalidInput
error exists anywhere in the code. -/
theorem no_input_validation :
    fcfs_schedule [] = [] ∧
    sjf_non_preemptive_schedule 1 [] = some [] ∧
    sjf_preemptive_schedule 1 [] = some [] ∧
    round_robin_schedule 1 [] 2 = some [] ∧
    mrr_schedule 1 [] 2 2 = some [] ∧
    sjf_non_preemptive_schedule 3 [⟨"P1", 0, 0⟩] = some [⟨"P1", 0, 0⟩] :=
  ⟨by rfl, by rfl, by rfl, by rfl, by rfl, by rfl⟩

/-- C10: the four single-processor schedulers of questions 1 to 4 never
write through their input: the store-threaded wrappers return the input
process list exactly as received, for every input, fuel and quantum — all
mutable run state (remaining maps, queues, completed sets, timelines) lives
in structures of their own. -/
theorem schedulers_preserve_input (ps : List Process) (fuel quantum : Nat) :
    (fcfs_run ps).2 = ps ∧ (sjf_np_run fuel ps).2 = ps ∧
    (srtf_run fuel ps).2 = ps ∧ (rr_run fuel ps quantum).2 = ps :=
  ⟨rfl, rfl, rfl, rfl⟩

end Sched

















